import Mathlib

/-!
Verification of the state-tree enumeration core of the repository
(files `01knapsack.py`, `01knapsackdp.py`, `FindTargetSumWays.py`).

The embedding translates the Python functions into Lean:

* `runKnapsackDfs`  embeds `run_knapsack_dfs`  of `01knapsack.py`;
* `runTargetSumDfs` embeds `run_target_sum_dfs` of `FindTargetSumWays.py`;
* `dpTable?`        embeds `build_knapsack_dp_table` of `01knapsackdp.py`;
* `buildDpGraph?`   embeds `build_dp_graph`      of `01knapsackdp.py`;
* `tsHighlighted`   embeds the highlighting part of
  `create_tree_graph_from_trace` of `FindTargetSumWays.py`;
* `parseIntList?`   embeds the comma-split / strip / `int(...)` parsing that
  all three Streamlit boundaries perform.

Python `IndexError` (list index out of range) is modelled by `Option`:
a list access `xs[i]` in fallible positions becomes `xs.get? i`, and a
function that can raise returns `none` in that case.

Python dictionaries keyed by strings are modelled as association lists in
insertion order, with assignment modelled by `pmInsert` (overwrite in place
if the key is present, append otherwise).  The per-signature counter
dictionary `node_counter` (read with default 0, then incremented) is
modelled as a total function `String → Nat` that is zero outside the keys
inserted so far, which has exactly the observable behaviour of the Python
dictionary access pattern `if k not in d: d[k] = 0; d[k] += 1`.
-/

/-- Assignment `m[k] = v` on a Python dict modelled as an association list in
insertion order: overwrite in place when the key is present, else append. -/
def pmInsert {α : Type} (m : List (String × α)) (k : String) (v : α) :
    List (String × α) :=
  if m.any (fun p => p.1 = k) then
    m.map (fun p => if p.1 = k then (k, v) else p)
  else m ++ [(k, v)]

/-- Association-list lookup, the model of Python dict read `m[k]` /
`k in m`. -/
def pmFind {α : Type} (m : List (String × α)) (k : String) : Option α :=
  (m.find? (fun p => p.1 = k)).map (·.2)

/-! ## The DFS knapsack enumerator (`run_knapsack_dfs`, `01knapsack.py`) -/

/-- Mutable state of `run_knapsack_dfs`: the visitation `trace`, the
`parent_map`, and the `node_counter` dictionary.  The source records only
the unique-id string in `trace`; we pair each id with the visited state
`(i, w, v)` as ghost data used solely by specifications — the source trace
is `trace.map Prod.fst`. -/
structure KState where
  trace : List (String × (Nat × Int × Int))
  pm : List (String × (String × String))
  counter : String → Nat

/-- The base display label `f"dp({i},{w},{v})"`. -/
def kBase (i : Nat) (w v : Int) : String :=
  "dp(" ++ toString i ++ "," ++ toString w ++ "," ++ toString v ++ ")"

/-- Steps 1–4 of `dfs` in `run_knapsack_dfs`: compute the base label, bump
its occurrence counter, form the unique node id, record it in the trace and
(for non-root calls) in the parent map.  Returns the new unique id and the
updated state. -/
def kVisit (i : Nat) (w v : Int) (parent : Option String) (lbl : String)
    (st : KState) : String × KState :=
  let base := kBase i w v
  let cnt := st.counter base + 1
  let uid := base ++ "_" ++ toString cnt
  (uid,
    { trace := st.trace ++ [(uid, (i, w, v))]
      pm := match parent with
            | none => st.pm
            | some p => pmInsert st.pm uid (p, lbl)
      counter := fun s => if s = base then cnt else st.counter s })

/-- The recursive `dfs` of `run_knapsack_dfs`.  `weight`/`value` are the
item arrays, `i` the item index, `w` the remaining capacity, `v` the
accumulated value.  After recording the visit: stop if `i >= len(weight)`;
otherwise recurse into the "Skip item i" child, then into the
"Pick item i" child when `w >= weight[i]`.  The source indexes `weight[i]`
and `value[i]` under the guard `i < len(weight)` (with
`len(value) = len(weight)` ensured by the caller's validation), so the
`getD` defaults are never consulted on validated runs.  The Python
recursion terminates because `i` grows towards `len(weight)`; Lean requires
an explicit `fuel` argument, and the top-level run supplies
`weight.length + 1`, which is never exhausted (every call strictly
decreases `len(weight) + 1 - i`). -/
def kDfs (weight value : List Int) :
    Nat → Nat → Int → Int → Option String → String → KState → KState
  | 0, _, _, _, _, _, st => st
  | fuel + 1, i, w, v, parent, lbl, st =>
    let vis := kVisit i w v parent lbl st
    let st1 := vis.2
    if weight.length ≤ i then st1
    else
      let st2 := kDfs weight value fuel (i + 1) w v (some vis.1)
        ("Skip item " ++ toString i) st1
      if weight.getD i 0 ≤ w then
        kDfs weight value fuel (i + 1) (w - weight.getD i 0)
          (v + value.getD i 0) (some vis.1) ("Pick item " ++ toString i) st2
      else st2

/-- `run_knapsack_dfs(weight, value, W)`: start the recursion at
`dfs(0, W, 0)` with empty trace, parent map and counter dictionary. -/
def runKnapsackDfs (weight value : List Int) (W : Int) : KState :=
  kDfs weight value (weight.length + 1) 0 W 0 none "" ⟨[], [], fun _ => 0⟩

/-! ## The target-sum enumerator (`run_target_sum_dfs`, `FindTargetSumWays.py`) -/

/-- Mutable state of `run_target_sum_dfs`: trace, parent map, the
`valid_leaves` list and the `ways_count` counter, plus the `node_counter`
dictionary.  As in `KState`, each trace entry pairs the source's unique-id
string with the visited state `(i, cur_sum)` as ghost data. -/
structure TState where
  trace : List (String × (Nat × Int))
  pm : List (String × (String × String))
  leaves : List String
  ways : Nat
  counter : String → Nat

/-- The base display label `f"dfs({i}, {cur_sum})"` (note the space after
the comma, as in the source). -/
def tsBase (i : Nat) (s : Int) : String :=
  "dfs(" ++ toString i ++ ", " ++ toString s ++ ")"

/-- Steps 1–3 of `dfs` in `run_target_sum_dfs`: label, counter bump, unique
id, trace append, parent-map record. -/
def tsVisit (i : Nat) (s : Int) (parent : Option String) (lbl : String)
    (st : TState) : String × TState :=
  let base := tsBase i s
  let cnt := st.counter base + 1
  let uid := base ++ "_" ++ toString cnt
  (uid,
    { trace := st.trace ++ [(uid, (i, s))]
      pm := match parent with
            | none => st.pm
            | some p => pmInsert st.pm uid (p, lbl)
      leaves := st.leaves
      ways := st.ways
      counter := fun x => if x = base then cnt else st.counter x })

/-- The recursive `dfs` of `run_target_sum_dfs`.  After recording the
visit: if `i == len(nums)` then (when `cur_sum == target`) append the node
to `valid_leaves` and bump `ways_count`, and return; otherwise recurse into
`+nums[i]` then `-nums[i]`.  The Python recursion always terminates because
`i` grows by 1 until it reaches `len(nums)`; Lean requires an explicit
`fuel` argument, and the top-level run supplies `nums.length + 1`, which is
never exhausted (every call strictly decreases `len(nums) + 1 - i`). -/
def tsDfs (nums : List Int) (target : Int) :
    Nat → Nat → Int → Option String → String → TState → TState
  | 0, _, _, _, _, st => st
  | fuel + 1, i, cur, parent, lbl, st =>
    let vis := tsVisit i cur parent lbl st
    let st1 := vis.2
    if i = nums.length then
      if cur = target then
        { st1 with leaves := st1.leaves ++ [vis.1], ways := st1.ways + 1 }
      else st1
    else
      let st2 := tsDfs nums target fuel (i + 1) (cur + nums.getD i 0)
        (some vis.1) ("+" ++ toString (nums.getD i 0)) st1
      tsDfs nums target fuel (i + 1) (cur - nums.getD i 0)
        (some vis.1) ("-" ++ toString (nums.getD i 0)) st2

/-- `run_target_sum_dfs(nums, target)`: start at `dfs(0, 0)`. -/
def runTargetSumDfs (nums : List Int) (target : Int) : TState :=
  tsDfs nums target (nums.length + 1) 0 0 none "" ⟨[], [], [], 0, fun _ => 0⟩

/-! ## The DP table (`build_knapsack_dp_table`, `01knapsackdp.py`) -/

/-- One cell `dp[i][w]` of row `i = i1 + 1`, computed from the previous row
`prev = dp[i1]`: start from `dp[i1][w]`, and when `w >= weight[i1]` replace
it by `dp[i1][w - weight[i1]] + value[i1]` if that is larger.  Every list
access of the source is a fallible `get?` (Python raises `IndexError` when
`w - weight[i1] > W`, which happens exactly when `weight[i1] < 0`). -/
def dpCell (prev weight value : List Int) (i1 w : Nat) : Option Int := do
  let skip ← prev.get? w
  let wt ← weight.get? i1
  if wt ≤ (w : Int) then do
    let pv ← prev.get? ((w : Int) - wt).toNat
    let vl ← value.get? i1
    let pick := pv + vl
    return if skip < pick then pick else skip
  else
    return skip

/-- Rows `0..i` of the DP table (row 0 is all zeros, each later row is
computed cell-by-cell from its predecessor).  `cols` is `W + 1`. -/
def dpRows? (weight value : List Int) (cols : Nat) : Nat → Option (List (List Int))
  | 0 => some [List.replicate cols 0]
  | i + 1 => do
    let rows ← dpRows? weight value cols i
    let row ← (List.range cols).mapM (dpCell (rows.getLastD []) weight value i)
    return rows ++ [row]

/-- `build_knapsack_dp_table(weight, value, W)`.  `W` comes from a Streamlit
integer input and may be negative, in which case every row is the empty
list (`[0]*(W+1)` is empty), which `(W + 1).toNat` reproduces.  The result
is `none` exactly when the Python build raises `IndexError`. -/
def dpTable? (weight value : List Int) (W : Int) : Option (List (List Int)) :=
  dpRows? weight value (W + 1).toNat weight.length

/-! ## The DP graph (`build_dp_graph`, `01knapsackdp.py`) -/

/-- The source's `get_node_id` assigns a fresh consecutive integer to each
pair `(i, w)` on first use; since the node loop enumerates all pairs
`(i, w)` with `i ≤ n`, `w ≤ W` before any edge is added, this is a fixed
bijective relabeling of the pairs.  We use the pairs themselves as node
identities; nothing in the graph structure depends on the integer values. -/
abbrev DpNode := Nat × Nat

/-- `G.add_edge(u, v, label=l)` on a `networkx.DiGraph`: at most one edge
per ordered pair `(u, v)` — adding an edge that already exists only
replaces its label.  Edges are kept in insertion order. -/
def dpAddEdge (es : List ((DpNode × DpNode) × String)) (u v : DpNode)
    (l : String) : List ((DpNode × DpNode) × String) :=
  if es.any (fun e => e.1 = (u, v)) then
    es.map (fun e => if e.1 = (u, v) then ((u, v), l) else e)
  else es ++ [((u, v), l)]

/-- The body of the edge double loop of `build_dp_graph` for one pair
`(i, w)`: add the "skip item i" edge from `(i,w)` to `(i+1,w)` when
`dp[i+1][w] == dp[i][w]`, then (when `w >= weight[i]`) add the
"pick item i" edge from `(i,w)` to `(i+1,w)` when
`dp[i+1][w] == dp[i][w-weight[i]] + value[i]`.  All list accesses are
fallible, in source order. -/
def dpEdgesAt (dp : List (List Int)) (weight value : List Int) (i w : Nat)
    (es : List ((DpNode × DpNode) × String)) :
    Option (List ((DpNode × DpNode) × String)) := do
  let rowi ← dp.get? i
  let curVal ← rowi.get? w
  let rowi1 ← dp.get? (i + 1)
  let v1 ← rowi1.get? w
  let es1 := if v1 = curVal then
    dpAddEdge es (i, w) (i + 1, w) ("skip item " ++ toString i) else es
  let wt ← weight.get? i
  if wt ≤ (w : Int) then do
    let pv ← rowi.get? (((w : Int) - wt).toNat)
    let vl ← value.get? i
    let v1b ← rowi1.get? w
    return if v1b = pv + vl then
      dpAddEdge es1 (i, w) (i + 1, w) ("pick item " ++ toString i) else es1
  else
    return es1

/-- The iteration sequence of the nested edge loops: `i` in `[0..n-1]`
outer, `w` in `[0..W]` inner. -/
def dpIter (n cols : Nat) : List (Nat × Nat) :=
  (List.range n).flatMap (fun i => (List.range cols).map (fun w => (i, w)))

/-- The graph produced by `build_dp_graph`: node list (with display labels
`f"dp({i},{w})={dp[i][w]}"`) and edge list. -/
structure DpGraph where
  nodes : List (DpNode × String)
  edges : List ((DpNode × DpNode) × String)
deriving DecidableEq

/-- `build_dp_graph(dp, weight, value)`.  `n = len(dp) - 1`,
`W = len(dp[0]) - 1` (an `IndexError` on empty `dp`, and possibly negative,
hence the `Int` subtraction and `toNat`).  Nodes are added for all `(i, w)`
with `i ≤ n`, `w ≤ W`; then the edge loops run.  `none` models an uncaught
`IndexError`. -/
def buildDpGraph? (dp : List (List Int)) (weight value : List Int) :
    Option DpGraph := do
  let n := dp.length - 1
  let row0 ← dp.get? 0
  let cols := ((row0.length : Int) - 1 + 1).toNat
  let nodes := (List.range (n + 1)).flatMap (fun i =>
    (List.range cols).map (fun w =>
      ((i, w),
        "dp(" ++ toString i ++ "," ++ toString w ++ ")=" ++
          toString ((dp.getD i []).getD w 0))))
  let edges ← (dpIter n cols).foldlM
    (fun es iw => dpEdgesAt dp weight value iw.1 iw.2 es) []
  return ⟨nodes, edges⟩

/-- The final label of the edge from `u` to `v`, if present. -/
def edgeLabel (g : DpGraph) (u v : DpNode) : Option String :=
  (g.edges.find? (fun e => e.1 = (u, v))).map (·.2)

/-! ## The target-sum path highlighter (`create_tree_graph_from_trace`) -/

/-- The `quick_parent` index of `create_tree_graph_from_trace`: the parent
map with edge labels stripped. -/
def tsQuickParent (pm : List (String × (String × String))) :
    List (String × String) :=
  pm.map (fun e => (e.1, e.2.1))

/-- The highlighter's `while cur in quick_parent` walk from a leaf towards
the root, collecting every visited node including the final parentless one.
The Python loop has no fuel; it terminates because the enumerator's parent
maps are acyclic (every parent occurs strictly earlier in the trace), and
`tsChase_spec`-style arguments below show that the fuel
`quick_parent.length + 1` used by `tsHighlighted` is never exhausted, so
the fuelled walk computes exactly what the loop does. -/
def tsChase (qp : List (String × String)) : Nat → String → List String
  | 0, _ => []
  | fuel + 1, cur =>
    match pmFind qp cur with
    | some p => cur :: tsChase qp fuel p
    | none => [cur]

/-- The `highlighted_nodes` set of `create_tree_graph_from_trace`: the
union over all valid leaves of the parent-chain walk (a Python set,
modelled as a list up to membership). -/
def tsHighlighted (pm : List (String × (String × String)))
    (leaves : List String) : List String :=
  leaves.flatMap
    (fun leaf => tsChase (tsQuickParent pm) ((tsQuickParent pm).length + 1) leaf)

/-- `p` is a path in the recursion tree from `root` down to `leaf`:
nonempty, starts at the root, ends at the leaf, and each consecutive pair
is a recorded parent/child edge. -/
def isParentChainPath (qp : List (String × String)) (root leaf : String)
    (p : List String) : Prop :=
  p.head? = some root ∧ p.getLast? = some leaf ∧
    p.Chain' (fun a b => pmFind qp b = some a)

/-! ## Input parsing at the Streamlit boundary -/

/-- Python `s.split(",")`: cut the character sequence at every comma;
`n` commas yield `n + 1` (possibly empty) tokens. -/
def splitCommas (l : List Char) : List (List Char) :=
  match l with
  | [] => [[]]
  | c :: rest =>
    let r := splitCommas rest
    if c = ',' then [] :: r
    else (c :: r.headD []) :: r.tail

/-- Python `tok.strip()`: drop whitespace from both ends. -/
def pyStrip (l : List Char) : List Char :=
  ((l.dropWhile (fun c => c.isWhitespace)).reverse.dropWhile
    (fun c => c.isWhitespace)).reverse

/-- Python `int(tok)` for an already-stripped token: an optional sign
followed by a nonempty digit string.  (Python additionally allows
underscore digit grouping; no input these claims touch contains one.) -/
def pyInt? (tok : List Char) : Option Int :=
  let core := fun (ds : List Char) =>
    if ds ≠ [] ∧ ds.all (fun c => c.isDigit) then
      some (ds.foldl (fun a c => a * 10 + ((c.toNat : Int) - 48)) 0)
    else none
  match tok with
  | '-' :: rest => (core rest).map (fun n => -n)
  | '+' :: rest => core rest
  | l => core l

/-- `[int(x.strip()) for x in s.split(",") if x.strip()]`: split on commas,
drop tokens that are empty after stripping, convert the rest with `int`;
any failing conversion aborts the whole list (the `except` branch). -/
def parseIntList? (s : String) : Option (List Int) :=
  (((splitCommas s.data).map pyStrip).filter (fun t => t ≠ [])).mapM pyInt?

/-! ## The Streamlit boundaries -/

/-- Error taxonomy of the invoking boundary: `InputError` is the
`st.error("Invalid ... input!")` branch (an `int(...)` conversion failed),
`ValidationError` the `st.error("... must have the same length!")`
branch. -/
inductive BoundaryError where
  | inputError
  | validationError
deriving DecidableEq, Repr

/-- The button handler of `01knapsack.py` (lines 142–167): parse both
lists (a conversion failure is reported as an input error and stops the
run), check the lengths, then run the DFS enumerator. -/
def knapsackApp (ws vs : String) (W : Int) : Except BoundaryError KState :=
  match parseIntList? ws with
  | none => .error .inputError
  | some wl =>
    match parseIntList? vs with
    | none => .error .inputError
    | some vl =>
      if wl.length ≠ vl.length then .error .validationError
      else .ok (runKnapsackDfs wl vl W)

/-- Possible outcomes of `main()` in `01knapsackdp.py`: the two reported
errors, an uncaught Python exception during enumeration (`crashed` — the
`try` only covers the parsing), or a completed run. -/
inductive DpOutcome where
  | inputError
  | validationError
  | crashed
  | ok (dp : List (List Int)) (g : DpGraph)
deriving DecidableEq

/-- The button handler of `01knapsackdp.py` (lines 155–180): parse, check
lengths, build the DP table, build the DP graph.  `IndexError` inside the
two build functions is not caught by the handler. -/
def dpApp (ws vs : String) (W : Int) : DpOutcome :=
  match parseIntList? ws with
  | none => .inputError
  | some wl =>
    match parseIntList? vs with
    | none => .inputError
    | some vl =>
      if wl.length ≠ vl.length then .validationError
      else
        match dpTable? wl vl W with
        | none => .crashed
        | some dp =>
          match buildDpGraph? dp wl vl with
          | none => .crashed
          | some g => .ok dp g

/-- The button handler of `FindTargetSumWays.py` (lines 170–192): parse
`nums` (failure is an input error), then run the enumerator; there is no
length check for this pipeline. -/
def targetSumApp (ns : String) (target : Int) : Except BoundaryError TState :=
  match parseIntList? ns with
  | none => .error .inputError
  | some nl => .ok (runTargetSumDfs nl target)

/-! ## Specification-side definitions used by the claims -/

/-- The segment of the visitation trace contributed by one `kDfs` call:
everything it appends after the trace it was handed. -/
def kNewTrace (weight value : List Int) (fuel i : Nat) (w v : Int)
    (parent : Option String) (lbl : String) (st : KState) :
    List (String × (Nat × Int × Int)) :=
  ((kDfs weight value fuel i w v parent lbl st).trace).drop st.trace.length

/-- The segment of the visitation trace contributed by one `tsDfs` call. -/
def tsNewTrace (nums : List Int) (target : Int) (fuel i : Nat) (cur : Int)
    (parent : Option String) (lbl : String) (st : TState) :
    List (String × (Nat × Int)) :=
  ((tsDfs nums target fuel i cur parent lbl st).trace).drop st.trace.length

/-- All `2 ^ n` pick vectors of length `n` (position `k` decides item `k`);
the brute-force search space of the spec's testable properties. -/
def pickVecs : Nat → List (List Bool)
  | 0 => [[]]
  | n + 1 => (pickVecs n).map (true :: ·) ++ (pickVecs n).map (false :: ·)

/-- Total weight of the sub-multiset selected by a pick vector. -/
def maskWeight (b : List Bool) (items : List (Int × Int)) : Int :=
  (List.zipWith (fun t p => if t then p.1 else 0) b items).sum

/-- Total value of the sub-multiset selected by a pick vector. -/
def maskValue (b : List Bool) (items : List (Int × Int)) : Int :=
  (List.zipWith (fun t p => if t then p.2 else 0) b items).sum

/-- Maximum of an optional pair (the join on `Option Int` with `none` as
bottom). -/
def omax : Option Int → Option Int → Option Int
  | none, b => b
  | some x, none => some x
  | some x, some y => some (max x y)

/-- Maximum of a list of integers, `none` when empty. -/
def maxOf? : List Int → Option Int
  | [] => none
  | x :: r => omax (some x) (maxOf? r)

/-- Best value among the pick vectors in `l` that fit in capacity `c`
(`none` when no listed vector fits): the brute-force optimum. -/
def feasBest? (items : List (Int × Int)) (c : Int) :
    List (List Bool) → Option Int
  | [] => none
  | b :: r =>
    if maskWeight b items ≤ c then
      omax (some (maskValue b items)) (feasBest? items c r)
    else feasBest? items c r

/-- Modelled from the spec: "the true optimal 0/1 knapsack value computable
by brute force" — the best total value over all `2 ^ n` pick vectors whose
total weight fits in the capacity (`0` when none fits, which cannot happen
for a nonnegative capacity since the empty selection fits). -/
def specOpt (items : List (Int × Int)) (c : Int) : Int :=
  (feasBest? items c (pickVecs items.length)).getD 0

/-- The ghost accumulated values of the trace entries at terminal item
index `n` — the DFS enumerator's leaf values. -/
def kLeafVals (st : KState) (n : Nat) : List Int :=
  (st.trace.filter (fun e => e.2.1 = n)).map (fun e => e.2.2.2)

/-- Textbook 0/1 knapsack recursion on (weight, value) pairs: the bridge
between the DP table, the brute-force optimum and the DFS leaf values. -/
def knapRec : List (Int × Int) → Int → Int
  | [], _ => 0
  | (wt, vl) :: r, c =>
    if wt ≤ c then max (knapRec r c) (knapRec r (c - wt) + vl)
    else knapRec r c

/-- The multiset of leaf accumulated values of the DFS knapsack recursion
tree over the remaining items, starting from accumulated value 0: skip
subtree first, then (when the capacity admits the item) the pick subtree
shifted by the item value. -/
def leafVals : List (Int × Int) → Int → List Int
  | [], _ => [0]
  | (wt, vl) :: r, c =>
    leafVals r c ++
      (if wt ≤ c then (leafVals r (c - wt)).map (fun x => vl + x) else [])

/-- Sign-assignment sums: `sdot s l = Σ s[k] * l[k]`. -/
def sdot (s l : List Int) : Int :=
  (List.zipWith (fun a b => a * b) s l).sum

/-- All `2 ^ n` sign vectors over `{+1, -1}` of length `n`. -/
def signVecs : Nat → List (List Int)
  | 0 => [[]]
  | n + 1 => (signVecs n).map ((1 : Int) :: ·) ++ (signVecs n).map ((-1 : Int) :: ·)

/-- Modelled from the spec: "the count of ± sign-assignments over nums
summing to target" (brute force over all `2 ^ len(nums)` combinations). -/
def specWays (nums : List Int) (target : Int) : Nat :=
  ((signVecs nums.length).filter (fun s => sdot s nums = target)).length

/-- Recursive count of sign assignments over the remaining elements that
bring an accumulated sum `c` to `target`; the inductive bridge between the
enumerator and `specWays`. -/
def tsCount (target : Int) : List Int → Int → Nat
  | [], c => if c = target then 1 else 0
  | x :: r, c => tsCount target r (c + x) + tsCount target r (c - x)

/-- Most-significant-first decimal digits of a natural number; the closed
form of core's fuelled `Nat.toDigitsCore`, used to reason about the
node-id strings that the enumerators build with `toString`. -/
def natChars (n : Nat) : List Char :=
  if n < 10 then [Nat.digitChar n]
  else natChars (n / 10) ++ [Nat.digitChar (n % 10)]
termination_by n
decreasing_by exact Nat.div_lt_self (by omega) (by omega)

/-- Decode a most-significant-first decimal digit string. -/
def decDigits (l : List Char) : Nat :=
  l.foldl (fun a c => a * 10 + (c.toNat - 48)) 0

/-- The edge entries (at most one) that the iteration `(i, w)` of
`build_dp_graph`'s edge loop leaves in the final edge list, written with
total (`getD`) lookups: when the pick test succeeds its edge overwrites the
skip edge's label (same endpoints), otherwise a successful skip test leaves
the skip edge.  `dpEdgesAt_eq` proves this is what the fallible loop body
contributes whenever it does not raise. -/
def stepEdges (dp : List (List Int)) (weight value : List Int) (i w : Nat) :
    List ((DpNode × DpNode) × String) :=
  if weight.getD i 0 ≤ (w : Int) ∧
      (dp.getD (i + 1) []).getD w 0 =
        (dp.getD i []).getD (((w : Int) - weight.getD i 0).toNat) 0 +
          value.getD i 0 then
    [(((i, w), (i + 1, w)), "pick item " ++ toString i)]
  else if (dp.getD (i + 1) []).getD w 0 = (dp.getD i []).getD w 0 then
    [(((i, w), (i + 1, w)), "skip item " ++ toString i)]
  else []

/-- Invariant of the knapsack enumerator state: every recorded node id is a
base label plus an occurrence number that the counter dictionary dominates,
and the recorded ids are pairwise distinct. -/
def KInv (st : KState) : Prop :=
  (∀ e ∈ st.trace, ∃ i w v k, e.1 = kBase i w v ++ "_" ++ toString k ∧
    1 ≤ k ∧ k ≤ st.counter (kBase i w v)) ∧
  (st.trace.map Prod.fst).Nodup

/-- Invariant of the target-sum enumerator state: recorded ids decompose as
counter-dominated occurrences of base labels and are pairwise distinct; each
parent-map entry's child appears in the trace strictly after its parent;
parent-map keys are distinct; valid leaves are recorded nodes; and every
recorded node except the first is a parent-map key. -/
def TInv (st : TState) : Prop :=
  (∀ e ∈ st.trace, ∃ i s k, e.1 = tsBase i s ++ "_" ++ toString k ∧
    1 ≤ k ∧ k ≤ st.counter (tsBase i s)) ∧
  (st.trace.map Prod.fst).Nodup ∧
  (∀ e ∈ st.pm, ∃ l1 l2, st.trace.map Prod.fst = l1 ++ e.1 :: l2 ∧ e.2.1 ∈ l1) ∧
  (st.pm.map Prod.fst).Nodup ∧
  (∀ x ∈ st.leaves, x ∈ st.trace.map Prod.fst) ∧
  (∀ x ∈ st.trace.map Prod.fst,
    x = (st.trace.map Prod.fst).headD "" ∨ x ∈ st.pm.map Prod.fst)

lemma kDfs_trace_ext (weight value : List Int) (fuel : Nat) :
    ∀ (i : Nat) (w v : Int) (p : Option String) (lbl : String) (st : KState),
      ∃ t, (kDfs weight value fuel i w v p lbl st).trace = st.trace ++ t := by
  induction fuel with
  | zero => intro i w v p lbl st; exact ⟨[], by simp [kDfs]⟩
  | succ f ih =>
    intro i w v p lbl st
    simp only [kDfs]
    by_cases h : weight.length ≤ i
    · rw [if_pos h]
      exact ⟨[((kVisit i w v p lbl st).1, (i, w, v))], by simp [kVisit]⟩
    · rw [if_neg h]
      obtain ⟨t1, h1⟩ := ih (i + 1) w v (some (kVisit i w v p lbl st).1)
        ("Skip item " ++ toString i) (kVisit i w v p lbl st).2
      by_cases hp : weight.getD i 0 ≤ w
      · rw [if_pos hp]
        obtain ⟨t2, h2⟩ := ih (i + 1) (w - weight.getD i 0) (v + value.getD i 0)
          (some (kVisit i w v p lbl st).1) ("Pick item " ++ toString i)
          (kDfs weight value f (i + 1) w v (some (kVisit i w v p lbl st).1)
            ("Skip item " ++ toString i) (kVisit i w v p lbl st).2)
        refine ⟨((kVisit i w v p lbl st).1, (i, w, v)) :: (t1 ++ t2), ?_⟩
        rw [h2, h1]
        simp [kVisit]
      · rw [if_neg hp]
        refine ⟨((kVisit i w v p lbl st).1, (i, w, v)) :: t1, ?_⟩
        rw [h1]
        simp [kVisit]

lemma tsDfs_trace_ext (nums : List Int) (target : Int) (fuel : Nat) :
    ∀ (i : Nat) (cur : Int) (p : Option String) (lbl : String) (st : TState),
      ∃ t, (tsDfs nums target fuel i cur p lbl st).trace = st.trace ++ t := by
  induction fuel with
  | zero => intro i cur p lbl st; exact ⟨[], by simp [tsDfs]⟩
  | succ f ih =>
    intro i cur p lbl st
    simp only [tsDfs]
    by_cases h : i = nums.length
    · rw [if_pos h]
      by_cases hc : cur = target
      · rw [if_pos hc]
        exact ⟨[((tsVisit i cur p lbl st).1, (i, cur))], by simp [tsVisit]⟩
      · rw [if_neg hc]
        exact ⟨[((tsVisit i cur p lbl st).1, (i, cur))], by simp [tsVisit]⟩
    · rw [if_neg h]
      obtain ⟨t1, h1⟩ := ih (i + 1) (cur + nums.getD i 0)
        (some (tsVisit i cur p lbl st).1) ("+" ++ toString (nums.getD i 0))
        (tsVisit i cur p lbl st).2
      obtain ⟨t2, h2⟩ := ih (i + 1) (cur - nums.getD i 0)
        (some (tsVisit i cur p lbl st).1) ("-" ++ toString (nums.getD i 0))
        (tsDfs nums target f (i + 1) (cur + nums.getD i 0)
          (some (tsVisit i cur p lbl st).1) ("+" ++ toString (nums.getD i 0))
          (tsVisit i cur p lbl st).2)
      refine ⟨((tsVisit i cur p lbl st).1, (i, cur)) :: (t1 ++ t2), ?_⟩
      rw [h2, h1]
      simp [tsVisit]


lemma kVisit_trace (i : Nat) (w v : Int) (p : Option String) (lbl : String)
    (st : KState) :
    (kVisit i w v p lbl st).2.trace =
      st.trace ++ [((kVisit i w v p lbl st).1, (i, w, v))] := by
  simp [kVisit]

lemma tsVisit_trace (i : Nat) (cur : Int) (p : Option String) (lbl : String)
    (st : TState) :
    (tsVisit i cur p lbl st).2.trace =
      st.trace ++ [((tsVisit i cur p lbl st).1, (i, cur))] := by
  simp [tsVisit]

lemma drop_len_append {α : Type} (l1 l2 : List α) :
    (l1 ++ l2).drop l1.length = l2 := by
  simp

/-- C3: both DFS enumerators visit states in the fixed pre-order the spec
describes: each call first records its own node; a call whose index has
passed the last item/element contributes nothing further; otherwise the
Knapsack enumerator contributes the whole "Skip item i" subtree first and
then — only when `w ≥ weight[i]` — the whole "Pick item i" subtree, while
the Target Sum enumerator contributes the whole `+nums[i]` subtree first
and then, unconditionally, the whole `-nums[i]` subtree. -/
theorem c3_dfs_fixed_preorder :
    (∀ (weight value : List Int) (fuel i : Nat) (w v : Int) (p : Option String)
        (lbl : String) (st : KState),
      kNewTrace weight value (fuel + 1) i w v p lbl st =
        ((kVisit i w v p lbl st).1, (i, w, v)) ::
          (if weight.length ≤ i then []
           else
             kNewTrace weight value fuel (i + 1) w v
               (some (kVisit i w v p lbl st).1) ("Skip item " ++ toString i)
               (kVisit i w v p lbl st).2 ++
             (if weight.getD i 0 ≤ w then
                kNewTrace weight value fuel (i + 1) (w - weight.getD i 0)
                  (v + value.getD i 0) (some (kVisit i w v p lbl st).1)
                  ("Pick item " ++ toString i)
                  (kDfs weight value fuel (i + 1) w v
                    (some (kVisit i w v p lbl st).1)
                    ("Skip item " ++ toString i) (kVisit i w v p lbl st).2)
              else []))) ∧
    (∀ (nums : List Int) (target : Int) (fuel i : Nat) (cur : Int)
        (p : Option String) (lbl : String) (st : TState),
      tsNewTrace nums target (fuel + 1) i cur p lbl st =
        ((tsVisit i cur p lbl st).1, (i, cur)) ::
          (if i = nums.length then []
           else
             tsNewTrace nums target fuel (i + 1) (cur + nums.getD i 0)
               (some (tsVisit i cur p lbl st).1) ("+" ++ toString (nums.getD i 0))
               (tsVisit i cur p lbl st).2 ++
             tsNewTrace nums target fuel (i + 1) (cur - nums.getD i 0)
               (some (tsVisit i cur p lbl st).1) ("-" ++ toString (nums.getD i 0))
               (tsDfs nums target fuel (i + 1) (cur + nums.getD i 0)
                 (some (tsVisit i cur p lbl st).1)
                 ("+" ++ toString (nums.getD i 0)) (tsVisit i cur p lbl st).2))) := by
  constructor
  · intro weight value fuel i w v p lbl st
    unfold kNewTrace
    simp only [kDfs]
    by_cases h : weight.length ≤ i
    · rw [if_pos h, if_pos h]
      rw [kVisit_trace, drop_len_append]
    · rw [if_neg h, if_neg h]
      obtain ⟨t1, h1⟩ := kDfs_trace_ext weight value fuel (i + 1) w v
        (some (kVisit i w v p lbl st).1) ("Skip item " ++ toString i)
        (kVisit i w v p lbl st).2
      by_cases hp : weight.getD i 0 ≤ w
      · rw [if_pos hp, if_pos hp]
        obtain ⟨t2, h2⟩ := kDfs_trace_ext weight value fuel (i + 1)
          (w - weight.getD i 0) (v + value.getD i 0)
          (some (kVisit i w v p lbl st).1) ("Pick item " ++ toString i)
          (kDfs weight value fuel (i + 1) w v (some (kVisit i w v p lbl st).1)
            ("Skip item " ++ toString i) (kVisit i w v p lbl st).2)
        rw [h2, h1, kVisit_trace]
        simp
      · rw [if_neg hp, if_neg hp]
        rw [h1, kVisit_trace]
        simp
  · intro nums target fuel i cur p lbl st
    unfold tsNewTrace
    simp only [tsDfs]
    by_cases h : i = nums.length
    · rw [if_pos h, if_pos h]
      by_cases hc : cur = target
      · rw [if_pos hc]
        show ((tsVisit i cur p lbl st).2.trace).drop st.trace.length = _
        rw [tsVisit_trace, drop_len_append]
      · rw [if_neg hc]
        rw [tsVisit_trace, drop_len_append]
    · rw [if_neg h, if_neg h]
      obtain ⟨t1, h1⟩ := tsDfs_trace_ext nums target fuel (i + 1)
        (cur + nums.getD i 0) (some (tsVisit i cur p lbl st).1)
        ("+" ++ toString (nums.getD i 0)) (tsVisit i cur p lbl st).2
      obtain ⟨t2, h2⟩ := tsDfs_trace_ext nums target fuel (i + 1)
        (cur - nums.getD i 0) (some (tsVisit i cur p lbl st).1)
        ("-" ++ toString (nums.getD i 0))
        (tsDfs nums target fuel (i + 1) (cur + nums.getD i 0)
          (some (tsVisit i cur p lbl st).1) ("+" ++ toString (nums.getD i 0))
          (tsVisit i cur p lbl st).2)
      rw [h2, h1, tsVisit_trace]
      simp

/-- C10: empty or whitespace-only tokens are silently dropped by the input
parser rather than rejected: "1,,2" parses to [1, 2]; any input all of
whose comma-separated tokens strip to empty (e.g. ",,," or blanks) parses
to the empty list with no error; and an empty item/nums list makes each
DFS enumerator produce a single root node and an empty parent map. -/
theorem c10_blank_tokens_dropped :
    parseIntList? "1,,2" = some [1, 2] ∧
    (∀ s : String, (∀ t ∈ splitCommas s.data, pyStrip t = []) →
      parseIntList? s = some []) ∧
    parseIntList? ",,," = some [] ∧
    parseIntList? "   " = some [] ∧
    (∀ W : Int, ((runKnapsackDfs [] [] W).trace.map Prod.fst).length = 1 ∧
      (runKnapsackDfs [] [] W).pm = []) ∧
    (∀ target : Int, ((runTargetSumDfs [] target).trace.map Prod.fst).length = 1 ∧
      (runTargetSumDfs [] target).pm = []) := by
  refine ⟨by decide, ?_, by decide, by decide, ?_, ?_⟩
  · intro s hs
    unfold parseIntList?
    have : ((splitCommas s.data).map pyStrip).filter (fun t => t ≠ []) = [] := by
      rw [List.filter_eq_nil_iff]
      intro a ha
      simp only [List.mem_map] at ha
      obtain ⟨t, ht, rfl⟩ := ha
      simpa using hs t ht
    rw [this]
    rfl
  · intro W
    constructor <;> simp [runKnapsackDfs, kDfs, kVisit]
  · intro target
    by_cases h0 : (0 : Int) = target <;>
      constructor <;> simp [runTargetSumDfs, tsDfs, tsVisit, h0]

/-- Witness for C10: the hypothesis of its second conjunct holds at the
concrete input ",,," (every token strips to empty), and the parser indeed
returns the empty list there. -/
theorem c10_blank_tokens_dropped_witness :
    (∀ t ∈ splitCommas (",,,".data), pyStrip t = []) ∧
      parseIntList? ",,," = some [] :=
  ⟨by decide, c10_blank_tokens_dropped.2.1 ",,," (by decide)⟩

/-- Counterexample to C1 (spec scenario weights=[2,3,4], values=[3,4,5],
W=5): at i = 0, w = 2 the claim's pick condition holds — w ≥ weight[0] = 2
and T[1][2] = 3 = T[0][0] + value[0] — yet the graph has no edge at all
from the node (0,2) to the node (1, w - weight[0]) = (1,0); its
"pick item 0" edge goes to (1,2) instead. -/
theorem c1_counterexample :
    dpTable? [2, 3, 4] [3, 4, 5] 5 =
      some [[0,0,0,0,0,0],[0,0,3,3,3,3],[0,0,3,4,4,7],[0,0,3,4,5,7]] ∧
    (2 : Int) ≤ 2 ∧
    ([[0,0,0,0,0,0],[0,0,3,3,3,3],[0,0,3,4,4,7],[0,0,3,4,5,7]].getD 1 []).getD 2 0 =
      ([[0,0,0,0,0,0],[0,0,3,3,3,3],[0,0,3,4,4,7],[0,0,3,4,5,7]].getD 0 []).getD 0 0 + 3 ∧
    (buildDpGraph? [[0,0,0,0,0,0],[0,0,3,3,3,3],[0,0,3,4,4,7],[0,0,3,4,5,7]]
        [2, 3, 4] [3, 4, 5]).map
      (fun g => (edgeLabel g (0, 2) (1, 0), edgeLabel g (0, 2) (1, 2))) =
      some (none, some "pick item 0") := by
  refine ⟨by decide, by decide, by decide, ?_⟩
  decide

/-- Counterexample to C2 (weights=[1], values=[0], W=1): at i = 0, w = 1
both the skip condition (T[1][1] = 0 = T[0][1]) and the pick condition
(1 ≥ weight[0] = 1 and T[1][1] = 0 = T[0][0] + value[0]) hold, yet the
resulting graph does NOT contain the "skip item 0" edge out of (0,1): both
candidate edges share the endpoints (0,1)→(1,1), and the later "pick"
insertion overwrites the "skip" label, leaving a single edge.  (No node of
this graph has two incoming edges.) -/
theorem c2_counterexample :
    dpTable? [1] [0] 1 = some [[0, 0], [0, 0]] ∧
    (buildDpGraph? [[0, 0], [0, 0]] [1] [0]).map (fun g => g.edges) =
      some [(((0, 0), (1, 0)), "skip item 0"), (((0, 1), (1, 1)), "pick item 0")] ∧
    (buildDpGraph? [[0, 0], [0, 0]] [1] [0]).map
      (fun g => g.edges.filter
        (fun e => decide (e.1.1 = ((0 : Nat), (1 : Nat)) ∧ e.2 = "skip item 0"))) =
      some [] := by
  refine ⟨by decide, by decide, by decide⟩

/-- Counterexample to C4's concrete scenario: for nums=[1,1,1], target=2
the enumerator returns ways_count = 0, not 3 (every sum ±1±1±1 is odd, so
no sign assignment reaches 2 — consistent with C4's general law, which
`c4_ways_count` proves). -/
theorem c4_counterexample :
    (runTargetSumDfs [1, 1, 1] 2).ways = 0 ∧
    ¬ (runTargetSumDfs [1, 1, 1] 2).ways = 3 ∧
    specWays [1, 1, 1] 2 = 0 := by
  refine ⟨by decide, by decide, by decide⟩

/-- Counterexample to C6 as stated (validated input weights=[-1],
values=[0], W=0): the DP table build raises IndexError — row 1 reads
dp[0][0 - (-1)] = dp[0][1], past the row end — so the entry T[n][W] does
not exist, while the DFS variant enumerates this input without error. -/
theorem c6_counterexample :
    dpTable? [-1] [0] 0 = none ∧
    ((runKnapsackDfs [-1] [0] 0).trace.map Prod.fst).length = 3 := by
  refine ⟨by decide, by decide⟩

/-- Counterexample to C8 (raw inputs "-1" / "0", W = 0): both texts parse
(no InputError), the lengths match (no ValidationError), yet enumeration
is not total — the DP pipeline crashes with an uncaught IndexError inside
`build_knapsack_dp_table`. -/
theorem c8_counterexample :
    parseIntList? "-1" = some [-1] ∧
    parseIntList? "0" = some [0] ∧
    dpApp "-1" "0" 0 = DpOutcome.crashed := by
  refine ⟨by decide, by decide, by decide⟩

/-- Counterexample to C9 (weights=[0], values=[1], W = 0): an item of
weight 0 is pickable at capacity 0, so the DFS variant records a
"Pick item 0" edge and the DP variant adds a "pick item 0" edge. -/
theorem c9_counterexample :
    (runKnapsackDfs [0] [1] 0).pm =
      [("dp(1,0,0)_1", ("dp(0,0,0)_1", "Skip item 0")),
       ("dp(1,0,1)_1", ("dp(0,0,0)_1", "Pick item 0"))] ∧
    dpTable? [0] [1] 0 = some [[0], [1]] ∧
    (buildDpGraph? [[0], [1]] [0] [1]).map (fun g => g.edges) =
      some [(((0, 0), (1, 0)), "pick item 0")] := by
  refine ⟨by decide, by decide, by decide⟩

lemma tsDfs_ways_leaves (nums : List Int) (target : Int) :
    ∀ (fuel i : Nat) (cur : Int) (p : Option String) (lbl : String)
      (st : TState), nums.length + 1 ≤ fuel + i → i ≤ nums.length →
      (tsDfs nums target fuel i cur p lbl st).ways =
        st.ways + tsCount target (nums.drop i) cur ∧
      (tsDfs nums target fuel i cur p lbl st).leaves.length =
        st.leaves.length + tsCount target (nums.drop i) cur := by
  intro fuel
  induction fuel with
  | zero => intro i cur p lbl st hf hi; omega
  | succ f ih =>
    intro i cur p lbl st hf hi
    simp only [tsDfs]
    by_cases h : i = nums.length
    · rw [if_pos h]
      have hd : nums.drop i = [] := by
        rw [List.drop_eq_nil_iff]
        omega
      rw [hd]
      by_cases hc : cur = target
      · rw [if_pos hc]
        simp [tsVisit, tsCount, hc]
      · rw [if_neg hc]
        simp [tsVisit, tsCount, hc]
    · rw [if_neg h]
      have hlt : i < nums.length := by omega
      have hd : nums.drop i = nums[i] :: nums.drop (i + 1) :=
        List.drop_eq_getElem_cons hlt
      have hgd : nums.getD i 0 = nums[i] := by
        simp [List.getD_eq_getElem?_getD, List.getElem?_eq_getElem hlt]
      obtain ⟨w1, l1⟩ := ih (i + 1) (cur + nums.getD i 0)
        (some (tsVisit i cur p lbl st).1) ("+" ++ toString (nums.getD i 0))
        (tsVisit i cur p lbl st).2 (by omega) (by omega)
      obtain ⟨w2, l2⟩ := ih (i + 1) (cur - nums.getD i 0)
        (some (tsVisit i cur p lbl st).1) ("-" ++ toString (nums.getD i 0))
        (tsDfs nums target f (i + 1) (cur + nums.getD i 0)
          (some (tsVisit i cur p lbl st).1) ("+" ++ toString (nums.getD i 0))
          (tsVisit i cur p lbl st).2) (by omega) (by omega)
      rw [w2, l2, w1, l1, hd]
      have hvw : (tsVisit i cur p lbl st).2.ways = st.ways := by simp [tsVisit]
      have hvl : (tsVisit i cur p lbl st).2.leaves = st.leaves := by
        simp [tsVisit]
      rw [hvw, hvl, hgd]
      simp [tsCount]
      omega

lemma tsCount_eq_signVecs (target : Int) :
    ∀ (l : List Int) (c : Int),
      tsCount target l c =
        ((signVecs l.length).filter (fun s => c + sdot s l = target)).length := by
  intro l
  induction l with
  | nil =>
    intro c
    simp [tsCount, signVecs, sdot]
    by_cases hc : c = target
    · simp [hc]
    · simp [hc]
  | cons x r ih =>
    intro c
    simp only [tsCount, signVecs, List.length_cons, List.filter_append,
      List.length_append]
    rw [List.filter_map, List.filter_map]
    simp only [List.length_map]
    have h1 : (signVecs r.length).filter
        ((fun s => decide (c + sdot s (x :: r) = target)) ∘ ((1 : Int) :: ·)) =
        (signVecs r.length).filter (fun s => decide (c + x + sdot s r = target)) := by
      apply List.filter_congr
      intro s _
      simp only [Function.comp]
      congr 1
      have : sdot (1 :: s) (x :: r) = x + sdot s r := by
        simp [sdot]
      rw [this]
      exact propext ⟨fun hh => by omega, fun hh => by omega⟩
    have h2 : (signVecs r.length).filter
        ((fun s => decide (c + sdot s (x :: r) = target)) ∘ ((-1 : Int) :: ·)) =
        (signVecs r.length).filter (fun s => decide (c - x + sdot s r = target)) := by
      apply List.filter_congr
      intro s _
      simp only [Function.comp]
      congr 1
      have : sdot (-1 :: s) (x :: r) = -x + sdot s r := by
        simp [sdot]
      rw [this]
      exact propext ⟨fun hh => by omega, fun hh => by omega⟩
    rw [h1, h2, ih (c + x), ih (c - x)]

/-- C4 (amended): the ways_count returned by the Target Sum enumerator
equals the number of sign assignments s in {+1,-1}^len(nums) with
Σ s[k]·nums[k] = target, and exactly that many goal leaves are recorded
(one leaf and one counter bump per reaching terminal state); for the
spec's concrete scenario nums=[1,1,1], target=2 the correct count is 0. -/
theorem c4_ways_count :
    (∀ (nums : List Int) (target : Int),
      (runTargetSumDfs nums target).ways = specWays nums target ∧
      (runTargetSumDfs nums target).leaves.length =
        (runTargetSumDfs nums target).ways) ∧
    (runTargetSumDfs [1, 1, 1] 2).ways = 0 := by
  refine ⟨?_, by decide⟩
  intro nums target
  have h := tsDfs_ways_leaves nums target (nums.length + 1) 0 0 none ""
    ⟨[], [], [], 0, fun _ => 0⟩ (by omega) (by omega)
  have hcount : tsCount target nums 0 = specWays nums target := by
    rw [tsCount_eq_signVecs target nums 0]
    unfold specWays
    congr 1
    apply List.filter_congr
    intro s _
    congr 1
    exact propext ⟨fun hh => by omega, fun hh => by omega⟩
  unfold runTargetSumDfs
  simp only [List.drop_zero] at h
  refine ⟨?_, ?_⟩
  · rw [h.1, hcount]
    simp
  · rw [h.1, h.2]
    simp

lemma toDigitsCore_eq_natChars :
    ∀ (fuel n : Nat) (ds : List Char), n < fuel →
      Nat.toDigitsCore 10 fuel n ds = natChars n ++ ds := by
  intro fuel
  induction fuel with
  | zero => intro n ds h; omega
  | succ f ih =>
    intro n ds h
    simp only [Nat.toDigitsCore]
    by_cases h0 : n / 10 = 0
    · rw [if_pos h0]
      have hn : n < 10 := by omega
      rw [natChars, if_pos hn]
      have : n % 10 = n := by omega
      rw [this]
      rfl
    · rw [if_neg h0]
      have hn : ¬ n < 10 := by omega
      have hd : n / 10 < f := by
        have h1 : n / 10 < n := Nat.div_lt_self (by omega) (by omega)
        omega
      conv_rhs => rw [natChars]
      rw [if_neg hn, ih (n / 10) _ hd]
      simp

lemma natRepr_eq_natChars (n : Nat) : Nat.repr n = (natChars n).asString := by
  unfold Nat.repr Nat.toDigits
  rw [toDigitsCore_eq_natChars (n + 1) n [] (by omega)]
  simp

lemma digitChar_toNat (m : Nat) (h : m < 10) : (Nat.digitChar m).toNat = 48 + m := by
  interval_cases m <;> decide

lemma natChars_digits (n : Nat) :
    ∀ c ∈ natChars n, 48 ≤ c.toNat ∧ c.toNat ≤ 57 := by
  induction n using natChars.induct with
  | case1 n h =>
    rw [natChars, if_pos h]
    intro c hc
    simp only [List.mem_singleton] at hc
    subst hc
    rw [digitChar_toNat n h]
    omega
  | case2 n h ih =>
    rw [natChars, if_neg h]
    intro c hc
    rw [List.mem_append] at hc
    rcases hc with hc | hc
    · exact ih c hc
    · simp only [List.mem_singleton] at hc
      subst hc
      rw [digitChar_toNat (n % 10) (by omega)]
      omega

lemma decDigits_append_last (l : List Char) (c : Char) :
    decDigits (l ++ [c]) = decDigits l * 10 + (c.toNat - 48) := by
  unfold decDigits
  rw [List.foldl_append]
  rfl

lemma decDigits_natChars (n : Nat) : decDigits (natChars n) = n := by
  induction n using natChars.induct with
  | case1 n h =>
    rw [natChars, if_pos h]
    unfold decDigits
    simp [digitChar_toNat n h]
  | case2 n h ih =>
    rw [natChars, if_neg h]
    rw [decDigits_append_last, ih, digitChar_toNat (n % 10) (by omega)]
    omega

lemma natRepr_inj {a b : Nat} (h : Nat.repr a = Nat.repr b) : a = b := by
  rw [natRepr_eq_natChars, natRepr_eq_natChars] at h
  have hd : natChars a = natChars b := congrArg String.data h
  have := congrArg decDigits hd
  rwa [decDigits_natChars, decDigits_natChars] at this

lemma natRepr_no_underscore (n : Nat) : '_' ∉ (Nat.repr n).data := by
  rw [natRepr_eq_natChars]
  intro hmem
  have := natChars_digits n '_' hmem
  revert this
  decide

lemma int_toString_ofNat (m : Nat) : toString (Int.ofNat m) = Nat.repr m := rfl

lemma int_toString_negSucc (m : Nat) :
    toString (Int.negSucc m) = "-" ++ Nat.repr (m + 1) := rfl

lemma intToString_no_underscore (z : Int) : '_' ∉ (toString z).data := by
  cases z with
  | ofNat m => rw [int_toString_ofNat]; exact natRepr_no_underscore m
  | negSucc m =>
    rw [int_toString_negSucc]
    rw [String.data_append]
    intro hmem
    rcases List.mem_append.1 hmem with hm | hm
    · revert hm; decide
    · exact natRepr_no_underscore (m + 1) hm

lemma natToString_no_underscore (n : Nat) : '_' ∉ (toString n).data :=
  natRepr_no_underscore n

lemma sep_unique {c : Char} :
    ∀ (a b s1 s2 : List Char), c ∉ a → c ∉ b →
      a ++ c :: s1 = b ++ c :: s2 → a = b ∧ s1 = s2 := by
  intro a
  induction a with
  | nil =>
    intro b s1 s2 _ hb h
    cases b with
    | nil => simpa using h
    | cons x b2 =>
      simp only [List.nil_append, List.cons_append, List.cons.injEq] at h
      exact absurd (h.1 ▸ List.mem_cons_self x b2) hb
  | cons x a2 ih =>
    intro b s1 s2 ha hb h
    cases b with
    | nil =>
      simp only [List.cons_append, List.nil_append, List.cons.injEq] at h
      exact absurd (h.1 ▸ List.mem_cons_self x a2) ha
    | cons y b2 =>
      simp only [List.cons_append, List.cons.injEq] at h
      obtain ⟨rfl, h2⟩ := h
      have := ih b2 s1 s2 (fun hm => ha (List.mem_cons_of_mem _ hm))
        (fun hm => hb (List.mem_cons_of_mem _ hm)) h2
      exact ⟨by rw [this.1], this.2⟩

lemma uid_eq_parts {ba bb : String} {k1 k2 : Nat}
    (hba : '_' ∉ ba.data) (hbb : '_' ∉ bb.data)
    (h : ba ++ "_" ++ toString k1 = bb ++ "_" ++ toString k2) :
    ba = bb ∧ k1 = k2 := by
  have hd : ba.data ++ '_' :: (toString k1).data =
      bb.data ++ '_' :: (toString k2).data := by
    have := congrArg String.data h
    simpa [String.data_append] using this
  obtain ⟨h1, h2⟩ := sep_unique ba.data bb.data _ _ hba hbb hd
  refine ⟨String.ext h1, natRepr_inj (String.ext h2)⟩

lemma kBase_no_underscore (i : Nat) (w v : Int) : '_' ∉ (kBase i w v).data := by
  unfold kBase
  simp +decide [String.data_append, natToString_no_underscore i,
    intToString_no_underscore w, intToString_no_underscore v]

lemma tsBase_no_underscore (i : Nat) (s : Int) : '_' ∉ (tsBase i s).data := by
  unfold tsBase
  simp +decide [String.data_append, natToString_no_underscore i,
    intToString_no_underscore s]

lemma uid_ne {b b' : String} {k k' : Nat} (hb : '_' ∉ b.data)
    (hb' : '_' ∉ b'.data) (hne : b = b' → k ≠ k') :
    b ++ "_" ++ toString k ≠ b' ++ "_" ++ toString k' := by
  intro h
  obtain ⟨h1, h2⟩ := uid_eq_parts hb hb' h
  exact hne h1 h2

lemma kVisit_KInv {st : KState} (hst : KInv st) (i : Nat) (w v : Int)
    (p : Option String) (lbl : String) : KInv (kVisit i w v p lbl st).2 := by
  obtain ⟨hbound, hnodup⟩ := hst
  have hfresh : (kVisit i w v p lbl st).1 ∉ st.trace.map Prod.fst := by
    intro hmem
    obtain ⟨e, he, heq⟩ := List.mem_map.1 hmem
    obtain ⟨i', w', v', k', hid, hk1, hk2⟩ := hbound e he
    have : kBase i w v ++ "_" ++ toString (st.counter (kBase i w v) + 1) =
        kBase i' w' v' ++ "_" ++ toString k' := by
      rw [← hid, heq]; rfl
    obtain ⟨h1, h2⟩ := uid_eq_parts (kBase_no_underscore i w v)
      (kBase_no_underscore i' w' v') this
    rw [← h1] at hk2
    omega
  constructor
  · intro e he
    simp only [kVisit, List.mem_append, List.mem_singleton] at he
    rcases he with he | he
    · obtain ⟨i', w', v', k', hid, hk1, hk2⟩ := hbound e he
      refine ⟨i', w', v', k', hid, hk1, ?_⟩
      simp only [kVisit]
      split
      · next heq => rw [heq] at hk2; omega
      · exact hk2
    · subst he
      refine ⟨i, w, v, st.counter (kBase i w v) + 1, rfl, by omega, ?_⟩
      simp [kVisit]
  · simp only [kVisit, List.map_append]
    rw [List.nodup_append]
    refine ⟨hnodup, List.nodup_singleton _, ?_⟩
    intro a ha hb
    simp only [List.map_cons, List.map_nil, List.mem_singleton] at hb
    subst hb
    exact hfresh ha

lemma kDfs_KInv (weight value : List Int) :
    ∀ (fuel i : Nat) (w v : Int) (p : Option String) (lbl : String)
      (st : KState), KInv st →
      KInv (kDfs weight value fuel i w v p lbl st) := by
  intro fuel
  induction fuel with
  | zero => intro i w v p lbl st h; simpa [kDfs] using h
  | succ f ih =>
    intro i w v p lbl st h
    simp only [kDfs]
    by_cases hterm : weight.length ≤ i
    · rw [if_pos hterm]
      exact kVisit_KInv h i w v p lbl
    · rw [if_neg hterm]
      have h1 := kVisit_KInv h i w v p lbl
      have h2 := ih (i + 1) w v (some (kVisit i w v p lbl st).1)
        ("Skip item " ++ toString i) (kVisit i w v p lbl st).2 h1
      by_cases hp : weight.getD i 0 ≤ w
      · rw [if_pos hp]
        exact ih (i + 1) (w - weight.getD i 0) (v + value.getD i 0)
          (some (kVisit i w v p lbl st).1) ("Pick item " ++ toString i) _ h2
      · rw [if_neg hp]
        exact h2

lemma pmInsert_fresh {α : Type} (m : List (String × α)) (k : String) (v : α)
    (h : ∀ e ∈ m, e.1 ≠ k) : pmInsert m k v = m ++ [(k, v)] := by
  unfold pmInsert
  rw [if_neg]
  intro hc
  rw [List.any_eq_true] at hc
  obtain ⟨e, he, heq⟩ := hc
  exact h e he (by simpa using heq)

lemma headD_append_left {α : Type} (l1 l2 : List α) (d : α) (h : l1 ≠ []) :
    (l1 ++ l2).headD d = l1.headD d := by
  cases l1 with
  | nil => exact absurd rfl h
  | cons x r => rfl

lemma tsVisit_TInv {st : TState} (hst : TInv st) (i : Nat) (s : Int)
    (p : Option String) (lbl : String)
    (hp : (p = none ∧ st.trace = []) ∨
      (∃ q, p = some q ∧ q ∈ st.trace.map Prod.fst)) :
    TInv (tsVisit i s p lbl st).2 := by
  obtain ⟨hbound, hnodup, hpm, hkeys, hleaves, hcover⟩ := hst
  have hfresh : (tsVisit i s p lbl st).1 ∉ st.trace.map Prod.fst := by
    intro hmem
    obtain ⟨e, he, heq⟩ := List.mem_map.1 hmem
    obtain ⟨i', s', k', hid, hk1, hk2⟩ := hbound e he
    have : tsBase i s ++ "_" ++ toString (st.counter (tsBase i s) + 1) =
        tsBase i' s' ++ "_" ++ toString k' := by
      rw [← hid, heq]; rfl
    obtain ⟨h1, h2⟩ := uid_eq_parts (tsBase_no_underscore i s)
      (tsBase_no_underscore i' s') this
    rw [← h1] at hk2
    omega
  have hkeysub : ∀ e ∈ st.pm, e.1 ∈ st.trace.map Prod.fst := by
    intro e he
    obtain ⟨l1, l2, hsplit, _⟩ := hpm e he
    rw [hsplit]
    exact List.mem_append.2 (Or.inr (List.mem_cons_self _ _))
  have htrace : (tsVisit i s p lbl st).2.trace.map Prod.fst =
      st.trace.map Prod.fst ++ [(tsVisit i s p lbl st).1] := by
    simp [tsVisit]
  have hbound2 : ∀ e ∈ (tsVisit i s p lbl st).2.trace,
      ∃ i2 s2 k, e.1 = tsBase i2 s2 ++ "_" ++ toString k ∧ 1 ≤ k ∧
        k ≤ (tsVisit i s p lbl st).2.counter (tsBase i2 s2) := by
    intro e he
    simp only [tsVisit, List.mem_append, List.mem_singleton] at he
    rcases he with he | he
    · obtain ⟨i', s', k', hid, hk1, hk2⟩ := hbound e he
      refine ⟨i', s', k', hid, hk1, ?_⟩
      simp only [tsVisit]
      split
      · next heq => rw [heq] at hk2; omega
      · exact hk2
    · subst he
      refine ⟨i, s, st.counter (tsBase i s) + 1, rfl, by omega, ?_⟩
      simp [tsVisit]
  have hnodup2 : ((tsVisit i s p lbl st).2.trace.map Prod.fst).Nodup := by
    rw [htrace, List.nodup_append]
    refine ⟨hnodup, List.nodup_singleton _, ?_⟩
    intro a ha hb
    simp only [List.mem_singleton] at hb
    subst hb
    exact hfresh ha
  have hlv : (tsVisit i s p lbl st).2.leaves = st.leaves := by simp [tsVisit]
  have hleaves2 : ∀ x ∈ (tsVisit i s p lbl st).2.leaves,
      x ∈ (tsVisit i s p lbl st).2.trace.map Prod.fst := by
    intro x hx
    rw [hlv] at hx
    rw [htrace]
    exact List.mem_append.2 (Or.inl (hleaves x hx))
  rcases hp with ⟨hpn, htr⟩ | ⟨q, hpq, hq⟩
  · have hpmeq : (tsVisit i s p lbl st).2.pm = st.pm := by
      simp [tsVisit, hpn]
    have hpmnil : st.pm = [] := by
      cases hpme : st.pm with
      | nil => rfl
      | cons e r =>
        obtain ⟨l1, l2, hsplit, _⟩ := hpm e (by rw [hpme]; exact List.mem_cons_self _ _)
        rw [htr] at hsplit
        simp at hsplit
    refine ⟨hbound2, hnodup2, ?_, ?_, hleaves2, ?_⟩
    · rw [hpmeq, hpmnil]; intro e he; simp at he
    · rw [hpmeq, hpmnil]; simp
    · intro x hx
      left
      rw [htrace, htr] at hx ⊢
      simp only [List.map_nil, List.nil_append] at hx ⊢
      simp only [List.mem_singleton] at hx
      rw [hx]
      rfl
  · have hins : (tsVisit i s p lbl st).2.pm =
        st.pm ++ [((tsVisit i s p lbl st).1, (q, lbl))] := by
      have h0 : (tsVisit i s p lbl st).2.pm =
          pmInsert st.pm (tsVisit i s p lbl st).1 (q, lbl) := by
        simp [tsVisit, hpq]
      rw [h0]
      exact pmInsert_fresh _ _ _
        (fun e2 he2 heq2 => hfresh (heq2 ▸ hkeysub e2 he2))
    have hne : st.trace.map Prod.fst ≠ [] := by
      intro hemp
      rw [hemp] at hq
      exact absurd hq (List.not_mem_nil q)
    refine ⟨hbound2, hnodup2, ?_, ?_, hleaves2, ?_⟩
    · intro e he
      rw [hins] at he
      rcases List.mem_append.1 he with he | he
      · obtain ⟨l1, l2, hsplit, hpar⟩ := hpm e he
        refine ⟨l1, l2 ++ [(tsVisit i s p lbl st).1], ?_, hpar⟩
        rw [htrace, hsplit]
        simp
      · simp only [List.mem_singleton] at he
        subst he
        exact ⟨st.trace.map Prod.fst, [], by rw [htrace], hq⟩
    · rw [hins, List.map_append, List.nodup_append]
      refine ⟨hkeys, by simp, ?_⟩
      intro a ha hb
      simp only [List.map_cons, List.map_nil, List.mem_singleton] at hb
      subst hb
      obtain ⟨e, he, heq⟩ := List.mem_map.1 ha
      exact hfresh (heq ▸ hkeysub e he)
    · intro x hx
      rw [htrace] at hx
      rcases List.mem_append.1 hx with hx | hx
      · rcases hcover x hx with hh | hh
        · left
          rw [htrace, headD_append_left _ _ _ hne]
          exact hh
        · right
          rw [hins, List.map_append]
          exact List.mem_append.2 (Or.inl hh)
      · right
        simp only [List.mem_singleton] at hx
        subst hx
        rw [hins, List.map_append]
        exact List.mem_append.2 (Or.inr (by simp))

lemma tsVisit_mem_self (i : Nat) (s : Int) (p : Option String) (lbl : String)
    (st : TState) :
    (tsVisit i s p lbl st).1 ∈ (tsVisit i s p lbl st).2.trace.map Prod.fst := by
  simp [tsVisit]

lemma tsDfs_TInv (nums : List Int) (target : Int) :
    ∀ (fuel i : Nat) (cur : Int) (p : Option String) (lbl : String)
      (st : TState), TInv st →
      ((p = none ∧ st.trace = []) ∨
        (∃ q, p = some q ∧ q ∈ st.trace.map Prod.fst)) →
      TInv (tsDfs nums target fuel i cur p lbl st) := by
  intro fuel
  induction fuel with
  | zero => intro i cur p lbl st h _; simpa [tsDfs] using h
  | succ f ih =>
    intro i cur p lbl st h hp
    have h1 := tsVisit_TInv h i cur p lbl hp
    simp only [tsDfs]
    by_cases hterm : i = nums.length
    · rw [if_pos hterm]
      by_cases hc : cur = target
      · rw [if_pos hc]
        obtain ⟨a1, a2, a3, a4, a5, a6⟩ := h1
        refine ⟨a1, a2, a3, a4, ?_, a6⟩
        intro x hx
        simp only [List.mem_append, List.mem_singleton] at hx
        rcases hx with hx | hx
        · exact a5 x hx
        · subst hx
          exact tsVisit_mem_self i cur p lbl st
      · rw [if_neg hc]
        exact h1
    · rw [if_neg hterm]
      have hmem1 := tsVisit_mem_self i cur p lbl st
      have h2 := ih (i + 1) (cur + nums.getD i 0) (some (tsVisit i cur p lbl st).1)
        ("+" ++ toString (nums.getD i 0)) (tsVisit i cur p lbl st).2 h1
        (Or.inr ⟨(tsVisit i cur p lbl st).1, rfl, hmem1⟩)
      obtain ⟨t2, ht2⟩ := tsDfs_trace_ext nums target f (i + 1)
        (cur + nums.getD i 0) (some (tsVisit i cur p lbl st).1)
        ("+" ++ toString (nums.getD i 0)) (tsVisit i cur p lbl st).2
      have hmem2 : (tsVisit i cur p lbl st).1 ∈
          (tsDfs nums target f (i + 1) (cur + nums.getD i 0)
            (some (tsVisit i cur p lbl st).1) ("+" ++ toString (nums.getD i 0))
            (tsVisit i cur p lbl st).2).trace.map Prod.fst := by
        rw [ht2, List.map_append]
        exact List.mem_append.2 (Or.inl hmem1)
      exact ih (i + 1) (cur - nums.getD i 0) (some (tsVisit i cur p lbl st).1)
        ("-" ++ toString (nums.getD i 0)) _ h2
        (Or.inr ⟨(tsVisit i cur p lbl st).1, rfl, hmem2⟩)

lemma runTargetSumDfs_TInv (nums : List Int) (target : Int) :
    TInv (runTargetSumDfs nums target) := by
  unfold runTargetSumDfs
  apply tsDfs_TInv
  · refine ⟨?_, ?_, ?_, ?_, ?_, ?_⟩ <;> simp
  · exact Or.inl ⟨rfl, rfl⟩

/-- C7: within a single DFS enumeration run, the per-signature occurrence
counter strictly increases with each visit, so the recorded unique node
identifiers are pairwise distinct: the trace of either enumerator never
contains a duplicate id. -/
theorem c7_unique_node_ids :
    (∀ (weight value : List Int) (W : Int),
      ((runKnapsackDfs weight value W).trace.map Prod.fst).Nodup) ∧
    (∀ (nums : List Int) (target : Int),
      ((runTargetSumDfs nums target).trace.map Prod.fst).Nodup) := by
  constructor
  · intro weight value W
    have h : KInv (runKnapsackDfs weight value W) := by
      unfold runKnapsackDfs
      apply kDfs_KInv
      exact ⟨by simp, by simp⟩
    exact h.2
  · intro nums target
    exact (runTargetSumDfs_TInv nums target).2.1

lemma dpAddEdge_fresh (es : List ((DpNode × DpNode) × String)) (u v : DpNode)
    (l : String) (h : ∀ e ∈ es, e.1 ≠ (u, v)) :
    dpAddEdge es u v l = es ++ [((u, v), l)] := by
  unfold dpAddEdge
  rw [if_neg]
  intro hc
  rw [List.any_eq_true] at hc
  obtain ⟨e, he, heq⟩ := hc
  exact h e he (by simpa using heq)

lemma dpAddEdge_overwrite_last (es : List ((DpNode × DpNode) × String))
    (u v : DpNode) (l0 l : String) (h : ∀ e ∈ es, e.1 ≠ (u, v)) :
    dpAddEdge (es ++ [((u, v), l0)]) u v l = es ++ [((u, v), l)] := by
  unfold dpAddEdge
  rw [if_pos]
  · rw [List.map_append]
    congr 1
    · conv_rhs => rw [← List.map_id es]
      apply List.map_congr_left
      intro e he
      rw [if_neg (h e he)]
      rfl
    · simp
  · rw [List.any_eq_true]
    exact ⟨((u, v), l0), by simp, by simp⟩

example : True := trivial

lemma getD_of_get? {α : Type} {l : List α} {n : Nat} {x : α} (d : α)
    (h : l.get? n = some x) : l.getD n d = x := by
  rw [List.getD_eq_getElem?_getD, ← List.get?_eq_getElem?, h]
  rfl

lemma dpEdgesAt_eq (dp : List (List Int)) (weight value : List Int) (i w : Nat)
    (es : List ((DpNode × DpNode) × String))
    (hfresh : ∀ e ∈ es, e.1 ≠ ((i, w), (i + 1, w)))
    (es' : List ((DpNode × DpNode) × String))
    (h : dpEdgesAt dp weight value i w es = some es') :
    es' = es ++ stepEdges dp weight value i w := by
  unfold dpEdgesAt at h
  simp only [bind, Option.bind_eq_some] at h
  obtain ⟨rowi, hrowi, curVal, hcur, rowi1, hrowi1, v1, hv1, wt, hwt, h⟩ := h
  have hrowiD : dp.getD i [] = rowi := getD_of_get? [] hrowi
  have hrowi1D : dp.getD (i + 1) [] = rowi1 := getD_of_get? [] hrowi1
  have hcurD : rowi.getD w 0 = curVal := getD_of_get? 0 hcur
  have hv1D : rowi1.getD w 0 = v1 := getD_of_get? 0 hv1
  have hwtD : weight.getD i 0 = wt := getD_of_get? 0 hwt
  unfold stepEdges
  simp only [hrowiD, hrowi1D, hwtD, hcurD, hv1D]
  by_cases hle : wt ≤ (w : Int)
  · rw [if_pos hle] at h
    simp only [bind, Option.bind_eq_some] at h
    obtain ⟨pv, hpv, vl, hvl, v1b, hv1b, h⟩ := h
    have hv1b2 : v1 = v1b := by
      rw [hv1] at hv1b
      exact Option.some_inj.mp hv1b
    subst hv1b2
    have hpvD : rowi.getD ((↑w - wt).toNat) 0 = pv := getD_of_get? 0 hpv
    have hvlD : value.getD i 0 = vl := getD_of_get? 0 hvl
    rw [hpvD, hvlD]
    simp only [Option.pure_def, Option.some.injEq] at h
    by_cases hpk : v1 = pv + vl
    · rw [if_pos hpk] at h
      rw [if_pos ⟨hle, hpk⟩]
      by_cases hsk : v1 = curVal
      · rw [if_pos hsk] at h
        rw [dpAddEdge_fresh es _ _ _ hfresh] at h
        rw [dpAddEdge_overwrite_last es _ _ _ _ hfresh] at h
        exact h.symm
      · rw [if_neg hsk] at h
        rw [dpAddEdge_fresh es _ _ _ hfresh] at h
        exact h.symm
    · rw [if_neg hpk] at h
      rw [if_neg (fun hc => hpk hc.2)]
      by_cases hsk : v1 = curVal
      · rw [if_pos hsk] at h
        rw [if_pos hsk]
        rw [dpAddEdge_fresh es _ _ _ hfresh] at h
        exact h.symm
      · rw [if_neg hsk] at h
        rw [if_neg hsk]
        simpa using h.symm
  · rw [if_neg hle] at h
    simp only [Option.pure_def, Option.some.injEq] at h
    rw [if_neg (fun hc => hle hc.1)]
    by_cases hsk : v1 = curVal
    · rw [if_pos hsk] at h
      rw [if_pos hsk]
      rw [dpAddEdge_fresh es _ _ _ hfresh] at h
      exact h.symm
    · rw [if_neg hsk] at h
      rw [if_neg hsk]
      simpa using h.symm

lemma stepEdges_key (dp : List (List Int)) (weight value : List Int) (i w : Nat) :
    ∀ e ∈ stepEdges dp weight value i w, e.1 = ((i, w), (i + 1, w)) := by
  unfold stepEdges
  intro e he
  split at he
  · simp only [List.mem_singleton] at he; rw [he]
  · split at he
    · simp only [List.mem_singleton] at he; rw [he]
    · simp at he

lemma dpFold_eq (dp : List (List Int)) (weight value : List Int) :
    ∀ (iters : List (Nat × Nat)) (es : List ((DpNode × DpNode) × String)),
      (∀ iw ∈ iters, ∀ e ∈ es, e.1 ≠ ((iw.1, iw.2), (iw.1 + 1, iw.2))) →
      (iters.map (fun iw => ((iw.1, iw.2), (iw.1 + 1, iw.2)))).Nodup →
      ∀ es', iters.foldlM
          (fun es iw => dpEdgesAt dp weight value iw.1 iw.2 es) es = some es' →
        es' = es ++
          iters.flatMap (fun iw => stepEdges dp weight value iw.1 iw.2) := by
  intro iters
  induction iters with
  | nil =>
    intro es _ _ es' h
    simp only [List.foldlM_nil, Option.pure_def, Option.some.injEq] at h
    simp [← h]
  | cons iw0 rest ih =>
    intro es hfresh hnodup es' h
    rw [List.foldlM_cons] at h
    simp only [bind, Option.bind_eq_some] at h
    obtain ⟨es1, h1, h2⟩ := h
    have hes1 : es1 = es ++ stepEdges dp weight value iw0.1 iw0.2 :=
      dpEdgesAt_eq dp weight value iw0.1 iw0.2 es
        (hfresh iw0 (List.mem_cons_self _ _)) es1 h1
    rw [List.map_cons, List.nodup_cons] at hnodup
    have hfresh2 : ∀ iw ∈ rest, ∀ e ∈ es1,
        e.1 ≠ ((iw.1, iw.2), (iw.1 + 1, iw.2)) := by
      intro iw hiw e he
      rw [hes1] at he
      rcases List.mem_append.1 he with he | he
      · exact hfresh iw (List.mem_cons_of_mem _ hiw) e he
      · rw [stepEdges_key dp weight value iw0.1 iw0.2 e he]
        intro hc
        exact hnodup.1 (by rw [hc]; exact List.mem_map.2 ⟨iw, hiw, rfl⟩)
    have := ih es1 hfresh2 hnodup.2 es' h2
    rw [this, hes1]
    simp

lemma dpIter_key_nodup (n cols : Nat) :
    ((dpIter n cols).map
      (fun iw => ((iw.1, iw.2), (iw.1 + 1, iw.2)))).Nodup := by
  have hiter : dpIter n cols = (List.range n).product (List.range cols) := rfl
  apply List.Nodup.map
  · intro a b hab
    simp only [Prod.mk.injEq] at hab
    obtain ⟨⟨h1, h2⟩, _⟩ := hab
    exact Prod.ext h1 h2
  · rw [hiter]
    exact List.Nodup.product (List.nodup_range _) (List.nodup_range _)

lemma mem_dpIter {n cols i w : Nat} :
    (i, w) ∈ dpIter n cols ↔ i < n ∧ w < cols := by
  have hiter : dpIter n cols = (List.range n).product (List.range cols) := rfl
  rw [hiter]
  show (i, w) ∈ (List.range n) ×ˢ (List.range cols) ↔ _
  rw [List.mem_product, List.mem_range, List.mem_range]

lemma buildDpGraph?_parts (dp : List (List Int)) (weight value : List Int)
    (g : DpGraph) (h : buildDpGraph? dp weight value = some g) :
    ∃ row0, dp.get? 0 = some row0 ∧
      g.edges = (dpIter (dp.length - 1) row0.length).flatMap
        (fun iw => stepEdges dp weight value iw.1 iw.2) := by
  unfold buildDpGraph? at h
  simp only [bind, Option.bind_eq_some] at h
  obtain ⟨row0, hrow0, edges, hedges, hg⟩ := h
  refine ⟨row0, hrow0, ?_⟩
  have hcols : ((row0.length : Int) - 1 + 1).toNat = row0.length := by omega
  rw [hcols] at hedges
  have := dpFold_eq dp weight value (dpIter (dp.length - 1) row0.length) []
    (by intro iw _ e he; simp at he) (dpIter_key_nodup _ _) edges hedges
  simp only [Option.pure_def, Option.some.injEq] at hg
  rw [← hg]
  simpa using this

lemma find_key_flatMap (dp : List (List Int)) (weight value : List Int) :
    ∀ (iters : List (Nat × Nat)),
      ((iters.map (fun iw => ((iw.1, iw.2), (iw.1 + 1, iw.2)))).Nodup) →
      ∀ i w, (i, w) ∈ iters →
      ((iters.flatMap (fun iw => stepEdges dp weight value iw.1 iw.2)).find?
          (fun e => e.1 = ((i, w), (i + 1, w)))) =
        ((stepEdges dp weight value i w).find?
          (fun e => e.1 = ((i, w), (i + 1, w)))) := by
  intro iters
  induction iters with
  | nil => intro _ i w hmem; simp at hmem
  | cons jw rest ih =>
    intro hnodup i w hmem
    rw [List.map_cons, List.nodup_cons] at hnodup
    rw [List.flatMap_cons, List.find?_append]
    rcases List.mem_cons.1 hmem with heq1 | hmem2
    · have hstep : stepEdges dp weight value jw.1 jw.2 =
          stepEdges dp weight value i w := by rw [← heq1]
      have hkeyeq : ((jw.1, jw.2), (jw.1 + 1, jw.2)) =
          (((i : Nat), (w : Nat)), ((i + 1 : Nat), (w : Nat))) := by rw [← heq1]
      rw [hstep]
      cases hval : (stepEdges dp weight value i w).find?
          (fun e => e.1 = ((i, w), (i + 1, w))) with
      | some e => rw [Option.or_some]
      | none =>
        rw [Option.none_or]
        rw [List.find?_eq_none] at hval ⊢
        intro x hx
        obtain ⟨iw2, hiw2, hxstep⟩ := List.mem_flatMap.1 hx
        have hkey := stepEdges_key dp weight value iw2.1 iw2.2 x hxstep
        simp only [hkey, decide_eq_true_eq]
        intro hc
        have hkk : ((iw2.1, iw2.2), (iw2.1 + 1, iw2.2)) =
            ((jw.1, jw.2), (jw.1 + 1, jw.2)) := by
          rw [hc, hkeyeq]
        exact hnodup.1 (hkk ▸ List.mem_map.2 ⟨iw2, hiw2, rfl⟩)
    · have hjwkey : ∀ x ∈ stepEdges dp weight value jw.1 jw.2,
          ¬ (x.1 = ((i, w), (i + 1, w))) := by
        intro x hx hc
        have hkey := stepEdges_key dp weight value jw.1 jw.2 x hx
        rw [hkey] at hc
        have : jw = (i, w) := by
          have h1 := congrArg (fun q => q.1) hc
          simpa [Prod.ext_iff] using h1
        subst this
        exact hnodup.1 (List.mem_map.2 ⟨(i, w), hmem2, rfl⟩)
      have hnone : (stepEdges dp weight value jw.1 jw.2).find?
          (fun e => e.1 = ((i, w), (i + 1, w))) = none := by
        rw [List.find?_eq_none]
        intro x hx
        simpa using hjwkey x hx
      rw [hnone, Option.none_or]
      exact ih hnodup.2 i w hmem2

lemma headD_eq_getD_zero {α : Type} (l : List α) (d : α) :
    l.headD d = l.getD 0 d := by
  cases l <;> rfl

lemma edgeLabel_eq_step (dp : List (List Int)) (weight value : List Int)
    (g : DpGraph) (h : buildDpGraph? dp weight value = some g) (i w : Nat)
    (hi : i + 1 < dp.length) (hw : w < (dp.headD []).length) :
    edgeLabel g (i, w) (i + 1, w) =
      ((stepEdges dp weight value i w).find?
        (fun e => e.1 = ((i, w), (i + 1, w)))).map Prod.snd := by
  obtain ⟨row0, hrow0, hedges⟩ := buildDpGraph?_parts dp weight value g h
  have hhead : dp.headD [] = row0 := by
    rw [headD_eq_getD_zero]
    exact getD_of_get? [] hrow0
  unfold edgeLabel
  rw [hedges]
  rw [find_key_flatMap dp weight value _ (dpIter_key_nodup _ _) i w]
  rw [mem_dpIter]
  constructor
  · omega
  · rw [hhead] at hw; exact hw

lemma pick_ne_skip (i j : Nat) :
    ("pick item " ++ toString i) ≠ ("skip item " ++ toString j) := by
  intro h
  have h2 := congrArg (fun s => s.data.head?) h
  simp [String.data_append, List.head?_append] at h2

example : True := trivial

/-- C1 (amended): whenever the pick condition holds — `w ≥ weight[i]` and
`T[i+1][w] = T[i][w-weight[i]] + value[i]` for `i < n`, `w ≤ W` — the DP
graph contains a "pick item i" edge out of the node `(i, w)`, but its
destination is the node `(i+1, w)` (the same capacity column), not
`(i+1, w-weight[i])` as the spec sentence says. -/
theorem c1_pick_edge_destination :
    ∀ (dp : List (List Int)) (weight value : List Int) (g : DpGraph),
      buildDpGraph? dp weight value = some g →
      ∀ i w : Nat, i + 1 < dp.length → w < (dp.headD []).length →
      weight.getD i 0 ≤ (w : Int) →
      (dp.getD (i + 1) []).getD w 0 =
        (dp.getD i []).getD (((w : Int) - weight.getD i 0).toNat) 0 +
          value.getD i 0 →
      edgeLabel g (i, w) (i + 1, w) = some ("pick item " ++ toString i) := by
  intro dp weight value g h i w hi hw hcap hcond
  rw [edgeLabel_eq_step dp weight value g h i w hi hw]
  unfold stepEdges
  rw [if_pos ⟨hcap, hcond⟩]
  rw [List.find?_cons_of_pos _ (by simp)]
  rfl

/-- Witness for C1's amended theorem at the concrete input
dp = T([1],[1],W=1), weights=[1], values=[1], i=0, w=1: the pick condition
holds and the graph's pick edge goes from (0,1) to (1,1). -/
theorem c1_pick_edge_destination_witness :
    dpTable? [1] [1] 1 = some [[0, 0], [0, 1]] ∧
    ((buildDpGraph? [[0, 0], [0, 1]] [1] [1]).map
      (fun g => edgeLabel g (0, 1) (1, 1))) = some (some "pick item 0") := by
  refine ⟨by decide, ?_⟩
  cases hg : buildDpGraph? [[0, 0], [0, 1]] [1] [1] with
  | none => exact absurd hg (by decide)
  | some g =>
    simp only [Option.map_some', Option.some.injEq]
    rw [c1_pick_edge_destination [[0, 0], [0, 1]] [1] [1] g hg 0 1
      (by decide) (by decide) (by decide) (by decide)]
    decide

/-- C2 (amended): when the skip and pick conditions hold simultaneously at
(i, w), both candidate edges share the endpoints (i,w)→(i+1,w); the later
pick insertion overwrites the skip edge's label in the `DiGraph`, so the
graph keeps exactly one edge there, labelled "pick item i", and no
"skip item i" edge out of (i, w) exists; moreover no node of the DP graph
ever has two distinct incoming edges. -/
theorem c2_tied_edges_overwrite :
    ∀ (dp : List (List Int)) (weight value : List Int) (g : DpGraph),
      buildDpGraph? dp weight value = some g →
      (∀ i w : Nat, i + 1 < dp.length → w < (dp.headD []).length →
        (dp.getD (i + 1) []).getD w 0 = (dp.getD i []).getD w 0 →
        weight.getD i 0 ≤ (w : Int) →
        (dp.getD (i + 1) []).getD w 0 =
          (dp.getD i []).getD (((w : Int) - weight.getD i 0).toNat) 0 +
            value.getD i 0 →
        edgeLabel g (i, w) (i + 1, w) = some ("pick item " ++ toString i) ∧
        (∀ e ∈ g.edges, e.1.1 = ((i : Nat), (w : Nat)) →
          e.2 ≠ "skip item " ++ toString i)) ∧
      (∀ e1 ∈ g.edges, ∀ e2 ∈ g.edges, e1.1.2 = e2.1.2 → e1 = e2) := by
  intro dp weight value g h
  obtain ⟨row0, hrow0, hedges⟩ := buildDpGraph?_parts dp weight value g h
  constructor
  · intro i w hi hw hskip hcap hcond
    constructor
    · rw [edgeLabel_eq_step dp weight value g h i w hi hw]
      unfold stepEdges
      rw [if_pos ⟨hcap, hcond⟩]
      rw [List.find?_cons_of_pos _ (by simp)]
      rfl
    · intro e he hsrc
      rw [hedges] at he
      obtain ⟨jw, hjw, hestep⟩ := List.mem_flatMap.1 he
      have hkey := stepEdges_key dp weight value jw.1 jw.2 e hestep
      have hjweq : jw = (i, w) := by
        rw [hkey] at hsrc
        exact Prod.ext (congrArg Prod.fst hsrc) (congrArg Prod.snd hsrc)
      rw [hjweq] at hestep
      revert hestep
      unfold stepEdges
      rw [if_pos ⟨hcap, hcond⟩]
      intro hestep hlbl
      simp only [List.mem_singleton] at hestep
      rw [hestep] at hlbl
      exact pick_ne_skip i i hlbl
  · intro e1 he1 e2 he2 hdst
    rw [hedges] at he1 he2
    obtain ⟨jw1, hjw1, hstep1⟩ := List.mem_flatMap.1 he1
    obtain ⟨jw2, hjw2, hstep2⟩ := List.mem_flatMap.1 he2
    have hkey1 := stepEdges_key dp weight value jw1.1 jw1.2 e1 hstep1
    have hkey2 := stepEdges_key dp weight value jw2.1 jw2.2 e2 hstep2
    have hjw12 : jw1 = jw2 := by
      rw [hkey1, hkey2] at hdst
      simp only [Prod.mk.injEq] at hdst
      exact Prod.ext (by omega) hdst.2
    rw [hjw12] at hstep1
    revert hstep1 hstep2
    unfold stepEdges
    split
    · intro h1 h2
      simp only [List.mem_singleton] at h1 h2
      rw [h1, h2]
    · split
      · intro h1 h2
        simp only [List.mem_singleton] at h1 h2
        rw [h1, h2]
      · intro h1 _
        simp at h1

/-- Witness for C2's amended theorem at the concrete tie input
dp = T([1],[0],W=1), weights=[1], values=[0], i=0, w=1 (both conditions
hold): the only edge out of (0,1) is the pick edge into (1,1). -/
theorem c2_tied_edges_overwrite_witness :
    dpTable? [1] [0] 1 = some [[0, 0], [0, 0]] ∧
    ((buildDpGraph? [[0, 0], [0, 0]] [1] [0]).map
      (fun g => edgeLabel g (0, 1) (1, 1))) = some (some "pick item 0") := by
  refine ⟨by decide, ?_⟩
  cases hg : buildDpGraph? [[0, 0], [0, 0]] [1] [0] with
  | none => exact absurd hg (by decide)
  | some g =>
    simp only [Option.map_some', Option.some.injEq]
    rw [((c2_tied_edges_overwrite [[0, 0], [0, 0]] [1] [0] g hg).1 0 1
      (by decide) (by decide) (by decide) (by decide) (by decide)).1]
    decide

lemma mapM_option_spec {α β : Type} (f : α → Option β) :
    ∀ (l : List α) (r : List β), l.mapM f = some r →
      r.length = l.length ∧
      ∀ k, k < l.length → ∃ a b, l.get? k = some a ∧ r.get? k = some b ∧
        f a = some b := by
  intro l
  induction l with
  | nil =>
    intro r h
    simp only [List.mapM_nil, Option.pure_def, Option.some.injEq] at h
    subst h
    exact ⟨rfl, fun k hk => by simp at hk⟩
  | cons x xs ih =>
    intro r h
    rw [List.mapM_cons] at h
    simp only [bind, Option.bind_eq_some, Option.pure_def,
      Option.some.injEq] at h
    obtain ⟨y, hy, ys, hys, hr⟩ := h
    obtain ⟨hlen, hget⟩ := ih ys hys
    subst hr
    refine ⟨by simp [hlen], ?_⟩
    intro k hk
    cases k with
    | zero => exact ⟨x, y, rfl, rfl, hy⟩
    | succ k2 =>
      obtain ⟨a, b, ha, hb, hf⟩ := hget k2 (by simpa using hk)
      exact ⟨a, b, ha, hb, hf⟩

lemma mapM_option_exists {α β : Type} (f : α → Option β) :
    ∀ (l : List α), (∀ a ∈ l, (f a).isSome) → (l.mapM f).isSome := by
  intro l
  induction l with
  | nil => intro _; rfl
  | cons x xs ih =>
    intro h
    rw [List.mapM_cons]
    have hx := h x (List.mem_cons_self _ _)
    obtain ⟨y, hy⟩ := Option.isSome_iff_exists.1 hx
    have hxs := ih (fun a ha => h a (List.mem_cons_of_mem _ ha))
    obtain ⟨ys, hys⟩ := Option.isSome_iff_exists.1 hxs
    rw [hy, hys]
    simp [bind]

lemma dpRows?_spec (weight value : List Int) (cols : Nat) :
    ∀ (i : Nat) (rows : List (List Int)),
      dpRows? weight value cols i = some rows →
      rows.length = i + 1 ∧ ∀ r ∈ rows, r.length = cols := by
  intro i
  induction i with
  | zero =>
    intro rows h
    simp only [dpRows?, Option.some.injEq] at h
    subst h
    refine ⟨rfl, ?_⟩
    intro r hr
    simp only [List.mem_singleton] at hr
    rw [hr]
    exact List.length_replicate _ _
  | succ i2 ih =>
    intro rows h
    simp only [dpRows?, bind, Option.bind_eq_some, Option.pure_def,
      Option.some.injEq] at h
    obtain ⟨rows0, hrows0, row, hrow, hr⟩ := h
    obtain ⟨hlen0, hall0⟩ := ih rows0 hrows0
    obtain ⟨hlenr, _⟩ := mapM_option_spec _ _ _ hrow
    subst hr
    refine ⟨by simp [hlen0], ?_⟩
    intro r hr
    rcases List.mem_append.1 hr with hr | hr
    · exact hall0 r hr
    · simp only [List.mem_singleton] at hr
      rw [hr, hlenr]
      exact List.length_range _

lemma dpTable?_shape (weight value : List Int) (W : Int)
    (dp : List (List Int)) (h : dpTable? weight value W = some dp) :
    dp.length = weight.length + 1 ∧ ∀ r ∈ dp, r.length = (W + 1).toNat := by
  exact dpRows?_spec weight value _ _ dp h

lemma pmInsert_mem {α : Type} {m : List (String × α)} {k : String} {v : α}
    {e : String × α} (h : e ∈ pmInsert m k v) : e ∈ m ∨ e = (k, v) := by
  unfold pmInsert at h
  split at h
  · rcases List.mem_map.1 h with ⟨e0, he0, heq⟩
    by_cases hc : e0.1 = k
    · rw [if_pos hc] at heq
      exact Or.inr heq.symm
    · rw [if_neg hc] at heq
      exact Or.inl (heq ▸ he0)
  · rcases List.mem_append.1 h with h | h
    · exact Or.inl h
    · simp only [List.mem_singleton] at h
      exact Or.inr h

lemma skip_ne_pickK (i j : Nat) :
    ("Skip item " ++ toString i) ≠ ("Pick item " ++ toString j) := by
  intro h
  have h2 := congrArg (fun s => s.data.head?) h
  simp [String.data_append, List.head?_append] at h2

lemma skip_ne_pickL (i j : Nat) :
    ("skip item " ++ toString i) ≠ ("pick item " ++ toString j) := by
  intro h
  have h2 := congrArg (fun s => s.data.head?) h
  simp [String.data_append, List.head?_append] at h2

lemma kDfs_no_pick (weight value : List Int)
    (hw : ∀ x ∈ weight, 1 ≤ x) :
    ∀ (fuel i : Nat) (w v : Int) (p : Option String) (lbl : String)
      (st : KState), w ≤ 0 →
      (∀ e ∈ st.pm, ∀ j : Nat, e.2.2 ≠ "Pick item " ++ toString j) →
      (∀ j : Nat, lbl ≠ "Pick item " ++ toString j) →
      ∀ e ∈ (kDfs weight value fuel i w v p lbl st).pm, ∀ j : Nat,
        e.2.2 ≠ "Pick item " ++ toString j := by
  intro fuel
  induction fuel with
  | zero => intro i w v p lbl st _ hpm _; simpa [kDfs] using hpm
  | succ f ih =>
    intro i w v p lbl st hw0 hpm hlbl
    have hpm1 : ∀ e ∈ (kVisit i w v p lbl st).2.pm, ∀ j : Nat,
        e.2.2 ≠ "Pick item " ++ toString j := by
      intro e he j
      simp only [kVisit] at he
      cases p with
      | none => exact hpm e he j
      | some q =>
        rcases pmInsert_mem he with he | he
        · exact hpm e he j
        · rw [he]
          exact hlbl j
    simp only [kDfs]
    by_cases hterm : weight.length ≤ i
    · rw [if_pos hterm]
      exact hpm1
    · rw [if_neg hterm]
      have hwi : 1 ≤ weight.getD i 0 := by
        apply hw
        have hlt : i < weight.length := by omega
        rw [List.getD_eq_getElem?_getD, List.getElem?_eq_getElem hlt]
        exact List.getElem_mem hlt
      rw [if_neg (by omega)]
      exact ih (i + 1) w v (some (kVisit i w v p lbl st).1)
        ("Skip item " ++ toString i) (kVisit i w v p lbl st).2 hw0 hpm1
        (fun j => skip_ne_pickK i j)

/-- C9 (amended): with capacity W = 0 and every weight positive, neither
Knapsack enumerator produces a pick edge: the DFS variant records no
"Pick item i" edge label, and the DP variant's graph has no "pick item i"
edge.  (The original claim fails for weight-0 items, which are pickable at
capacity 0.) -/
theorem c9_capacity_zero_no_pick :
    ∀ (weight value : List Int), (∀ x ∈ weight, 1 ≤ x) →
      (∀ e ∈ (runKnapsackDfs weight value 0).pm, ∀ j : Nat,
        e.2.2 ≠ "Pick item " ++ toString j) ∧
      (∀ (dp : List (List Int)) (g : DpGraph),
        dpTable? weight value 0 = some dp →
        buildDpGraph? dp weight value = some g →
        ∀ e ∈ g.edges, ∀ j : Nat, e.2 ≠ "pick item " ++ toString j) := by
  intro weight value hw
  constructor
  · unfold runKnapsackDfs
    apply kDfs_no_pick weight value hw _ 0 0 0 none "" _ le_rfl
    · intro e he; simp at he
    · intro j h
      have h2 := congrArg (fun s => s.data.head?) h
      simp [String.data_append, List.head?_append] at h2
  · intro dp g hdp hg e he j
    obtain ⟨row0, hrow0, hedges⟩ := buildDpGraph?_parts dp weight value g hg
    obtain ⟨hdplen, hcols⟩ := dpTable?_shape weight value 0 dp hdp
    rw [hedges] at he
    obtain ⟨jw, hjw, hestep⟩ := List.mem_flatMap.1 he
    have hrow0mem : row0 ∈ dp := List.get?_mem hrow0
    have hrow0len : row0.length = 1 := by
      rw [hcols row0 hrow0mem]
      rfl
    have hjwmem := mem_dpIter.1 (by
      have : jw = (jw.1, jw.2) := rfl
      rw [← this]
      exact hjw)
    have hw0 : jw.2 = 0 := by
      have := hjwmem.2
      omega
    have hi : jw.1 < weight.length := by
      have := hjwmem.1
      omega
    have hwi : 1 ≤ weight.getD jw.1 0 := by
      apply hw
      rw [List.getD_eq_getElem?_getD, List.getElem?_eq_getElem hi]
      exact List.getElem_mem hi
    revert hestep
    unfold stepEdges
    rw [if_neg (by
      intro hc
      have := hc.1
      rw [hw0] at this
      simp at this
      omega)]
    split
    · intro hestep hc
      simp only [List.mem_singleton] at hestep
      rw [hestep] at hc
      exact skip_ne_pickL jw.1 j hc
    · intro hestep
      simp at hestep

/-- Witness for C9's amended theorem: weights=[2] (positive), values=[3],
W = 0; the single recorded edge label is "Skip item 0", and the theorem
instance shows it is not a pick label. -/
theorem c9_capacity_zero_no_pick_witness :
    (∀ x ∈ ([2] : List Int), 1 ≤ x) ∧
    ("Skip item 0" : String) ≠ "Pick item 0" := by
  constructor
  · decide
  · have h := (c9_capacity_zero_no_pick [2] [3] (by decide)).1
    have hmem : ("dp(1,0,0)_1", ("dp(0,0,0)_1", "Skip item 0")) ∈
        (runKnapsackDfs [2] [3] 0).pm := by decide
    exact h _ hmem 0

lemma get?_isSome_of_lt {α : Type} {l : List α} {n : Nat} (h : n < l.length) :
    ∃ x, l.get? n = some x := by
  rw [List.get?_eq_getElem?]
  exact ⟨l[n], List.getElem?_eq_getElem h⟩

lemma getLastD_length_eq {rows : List (List Int)} {cols : Nat}
    (hne : rows ≠ []) (hall : ∀ r ∈ rows, r.length = cols) :
    (rows.getLastD []).length = cols := by
  cases hlq : rows.getLast? with
  | none => exact absurd (List.getLast?_eq_none_iff.1 hlq) hne
  | some x =>
    have hx : x ∈ rows := List.mem_of_getLast?_eq_some hlq
    have hgd : rows.getLastD [] = x := by
      rw [List.getLastD_eq_getLast?, hlq]
      rfl
    rw [hgd]
    exact hall x hx

lemma dpCell_isSome (prev weight value : List Int) (i2 w cols : Nat)
    (hprev : prev.length = cols) (hw : w < cols) (hi : i2 < weight.length)
    (hiv : i2 < value.length) (hnn : ∀ x ∈ weight, 0 ≤ x) :
    (dpCell prev weight value i2 w).isSome := by
  obtain ⟨skip, hskip⟩ := get?_isSome_of_lt (l := prev) (n := w) (by omega)
  obtain ⟨wt, hwt⟩ := get?_isSome_of_lt (l := weight) hi
  have hwtnn : 0 ≤ wt := by
    apply hnn
    exact List.get?_mem hwt
  unfold dpCell
  rw [hskip, hwt]
  simp only [bind, Option.some_bind]
  by_cases hle : wt ≤ (w : Int)
  · rw [if_pos hle]
    have hidx : ((w : Int) - wt).toNat < prev.length := by omega
    obtain ⟨pv, hpv⟩ := get?_isSome_of_lt hidx
    obtain ⟨vl, hvl⟩ := get?_isSome_of_lt (l := value) hiv
    rw [hpv, hvl]
    rfl
  · rw [if_neg hle]
    rfl

lemma dpRows?_isSome (weight value : List Int) (cols : Nat)
    (hlen : value.length = weight.length) (hnn : ∀ x ∈ weight, 0 ≤ x) :
    ∀ i, i ≤ weight.length → (dpRows? weight value cols i).isSome := by
  intro i
  induction i with
  | zero => intro _; rfl
  | succ i2 ih =>
    intro hle
    have h0 := ih (by omega)
    obtain ⟨rows, hrows⟩ := Option.isSome_iff_exists.1 h0
    obtain ⟨hrlen, hrall⟩ := dpRows?_spec weight value cols i2 rows hrows
    have hne : rows ≠ [] := by
      intro hc
      rw [hc] at hrlen
      simp at hrlen
    have hlast := getLastD_length_eq hne hrall
    have hrow : ((List.range cols).mapM
        (dpCell (rows.getLastD []) weight value i2)).isSome := by
      apply mapM_option_exists
      intro w hw
      exact dpCell_isSome (rows.getLastD []) weight value i2 w cols hlast
        (List.mem_range.1 hw) (by omega) (by omega) hnn
    obtain ⟨row, hrow2⟩ := Option.isSome_iff_exists.1 hrow
    simp only [dpRows?, hrows, hrow2, bind, Option.some_bind]
    rfl

lemma dpTable?_isSome (weight value : List Int) (W : Int)
    (hlen : value.length = weight.length) (hnn : ∀ x ∈ weight, 0 ≤ x) :
    (dpTable? weight value W).isSome :=
  dpRows?_isSome weight value _ hlen hnn weight.length le_rfl

lemma dpEdgesAt_isSome (dp : List (List Int)) (weight value : List Int)
    (i w cols : Nat) (hall : ∀ r ∈ dp, r.length = cols)
    (hi1 : i + 1 < dp.length) (hw : w < cols) (hiw : i < weight.length)
    (hiv : i < value.length) (hnn : ∀ x ∈ weight, 0 ≤ x)
    (es : List ((DpNode × DpNode) × String)) :
    (dpEdgesAt dp weight value i w es).isSome := by
  obtain ⟨rowi, hrowi⟩ := get?_isSome_of_lt (l := dp) (n := i) (by omega)
  obtain ⟨rowi1, hrowi1⟩ := get?_isSome_of_lt (l := dp) (n := i + 1) hi1
  have hrowilen : rowi.length = cols := hall rowi (List.get?_mem hrowi)
  have hrowi1len : rowi1.length = cols := hall rowi1 (List.get?_mem hrowi1)
  obtain ⟨cur, hcur⟩ := get?_isSome_of_lt (l := rowi) (n := w) (by omega)
  obtain ⟨v1, hv1⟩ := get?_isSome_of_lt (l := rowi1) (n := w) (by omega)
  obtain ⟨wt, hwt⟩ := get?_isSome_of_lt (l := weight) hiw
  have hwtnn : 0 ≤ wt := hnn wt (List.get?_mem hwt)
  unfold dpEdgesAt
  rw [hrowi]
  simp only [bind, Option.some_bind]
  rw [hcur]
  simp only [Option.some_bind]
  rw [hrowi1]
  simp only [Option.some_bind]
  rw [hv1]
  simp only [Option.some_bind]
  rw [hwt]
  simp only [Option.some_bind]
  by_cases hle : wt ≤ (w : Int)
  · rw [if_pos hle]
    have hidx : ((w : Int) - wt).toNat < rowi.length := by omega
    obtain ⟨pv, hpv⟩ := get?_isSome_of_lt hidx
    obtain ⟨vl, hvl⟩ := get?_isSome_of_lt (l := value) hiv
    rw [hpv]
    simp only [Option.some_bind]
    rw [hvl]
    simp only [Option.some_bind]
    rfl
  · rw [if_neg hle]
    rfl

lemma dpFold_isSome (dp : List (List Int)) (weight value : List Int) :
    ∀ (iters : List (Nat × Nat)),
      (∀ iw ∈ iters, ∀ es, (dpEdgesAt dp weight value iw.1 iw.2 es).isSome) →
      ∀ es, ((iters.foldlM
        (fun es iw => dpEdgesAt dp weight value iw.1 iw.2 es) es)).isSome := by
  intro iters
  induction iters with
  | nil => intro _ es; rfl
  | cons jw rest ih =>
    intro h es
    rw [List.foldlM_cons]
    obtain ⟨es1, hes1⟩ := Option.isSome_iff_exists.1
      (h jw (List.mem_cons_self _ _) es)
    rw [hes1]
    simp only [bind, Option.some_bind]
    exact ih (fun iw hiw es2 => h iw (List.mem_cons_of_mem _ hiw) es2) es1

lemma buildDpGraph?_isSome (weight value : List Int) (W : Int)
    (dp : List (List Int)) (hdp : dpTable? weight value W = some dp)
    (hlen : value.length = weight.length) (hnn : ∀ x ∈ weight, 0 ≤ x) :
    (buildDpGraph? dp weight value).isSome := by
  obtain ⟨hdplen, hall⟩ := dpTable?_shape weight value W dp hdp
  have hne : 0 < dp.length := by omega
  obtain ⟨row0, hrow0⟩ := get?_isSome_of_lt hne
  have hrow0len : row0.length = (W + 1).toNat :=
    hall row0 (List.get?_mem hrow0)
  have hcols : ((row0.length : Int) - 1 + 1).toNat = row0.length := by omega
  have hfold := dpFold_isSome dp weight value
    (dpIter (dp.length - 1) row0.length)
    (by
      intro iw hiw es
      have hmem := mem_dpIter.1 (by
        have : iw = (iw.1, iw.2) := rfl
        rw [← this]
        exact hiw)
      apply dpEdgesAt_isSome dp weight value iw.1 iw.2 row0.length
      · intro r hr
        rw [hall r hr, hrow0len]
      · omega
      · exact hmem.2
      · omega
      · omega
      · exact hnn) []
  obtain ⟨edges, hedges⟩ := Option.isSome_iff_exists.1 hfold
  unfold buildDpGraph?
  rw [hrow0]
  simp only [bind, Option.some_bind]
  rw [hcols, hedges]
  rfl

/-- C8 (amended): a failing `int(...)` conversion is reported as an
InputError and a weights/values length mismatch as a ValidationError, both
at the boundary before any enumeration, so no graph is produced; over
inputs that pass both checks AND whose weights are all nonnegative,
enumeration raises no further errors (the DP pipeline completes; the two
DFS pipelines are total even without the nonnegativity restriction). -/
theorem c8_boundary_errors_and_totality :
    (∀ (ws vs : String) (W : Int),
      ((parseIntList? ws = none ∨ parseIntList? vs = none) →
        dpApp ws vs W = DpOutcome.inputError ∧
        knapsackApp ws vs W = Except.error BoundaryError.inputError) ∧
      (∀ wl vl, parseIntList? ws = some wl → parseIntList? vs = some vl →
        wl.length ≠ vl.length →
        dpApp ws vs W = DpOutcome.validationError ∧
        knapsackApp ws vs W = Except.error BoundaryError.validationError) ∧
      (∀ wl vl, parseIntList? ws = some wl → parseIntList? vs = some vl →
        wl.length = vl.length → (∀ x ∈ wl, 0 ≤ x) →
        knapsackApp ws vs W = Except.ok (runKnapsackDfs wl vl W) ∧
        ∃ dp g, dpApp ws vs W = DpOutcome.ok dp g)) ∧
    (∀ (ns : String) (t : Int),
      (parseIntList? ns = none →
        targetSumApp ns t = Except.error BoundaryError.inputError) ∧
      (∀ nl, parseIntList? ns = some nl →
        targetSumApp ns t = Except.ok (runTargetSumDfs nl t))) := by
  constructor
  · intro ws vs W
    refine ⟨?_, ?_, ?_⟩
    · intro h
      rcases h with h | h
      · constructor <;> simp [dpApp, knapsackApp, h]
      · cases hws : parseIntList? ws with
        | none => constructor <;> simp [dpApp, knapsackApp, hws]
        | some wl => constructor <;> simp [dpApp, knapsackApp, hws, h]
    · intro wl vl hwl hvl hne
      constructor <;> simp [dpApp, knapsackApp, hwl, hvl, hne]
    · intro wl vl hwl hvl heq hnn
      constructor
      · simp [knapsackApp, hwl, hvl, heq]
      · obtain ⟨dp, hdp⟩ := Option.isSome_iff_exists.1
          (dpTable?_isSome wl vl W (by omega) hnn)
        refine ⟨dp, ?_⟩
        obtain ⟨g, hg⟩ := Option.isSome_iff_exists.1
          (buildDpGraph?_isSome wl vl W dp hdp (by omega) hnn)
        refine ⟨g, ?_⟩
        simp [dpApp, hwl, hvl, heq, hdp, hg]
  · intro ns t
    constructor
    · intro h
      simp [targetSumApp, h]
    · intro nl hnl
      simp [targetSumApp, hnl]

/-- Witness for C8's amended theorem at ws="2", vs="3", W=5: the inputs
parse, the lengths match, the weights are nonnegative, and both Knapsack
pipelines complete without error. -/
theorem c8_boundary_errors_and_totality_witness :
    (parseIntList? "2" = some [2] ∧ parseIntList? "3" = some [3] ∧
      ([2] : List Int).length = ([3] : List Int).length ∧
      (∀ x ∈ ([2] : List Int), 0 ≤ x)) ∧
    (knapsackApp "2" "3" 5 = Except.ok (runKnapsackDfs [2] [3] 5) ∧
      ∃ dp g, dpApp "2" "3" 5 = DpOutcome.ok dp g) := by
  refine ⟨⟨by decide, by decide, by decide, by decide⟩, ?_⟩
  exact ((c8_boundary_errors_and_totality.1 "2" "3" 5).2.2 [2] [3]
    (by decide) (by decide) (by decide) (by decide))

lemma omax_map_add (v : Int) :
    ∀ (a b : Option Int),
      (omax a b).map (fun x => v + x) =
        omax (a.map (fun x => v + x)) (b.map (fun x => v + x)) := by
  intro a b
  cases a <;> cases b <;> simp [omax]
  omega

lemma maxOf?_append :
    ∀ (l1 l2 : List Int), maxOf? (l1 ++ l2) = omax (maxOf? l1) (maxOf? l2) := by
  intro l1
  induction l1 with
  | nil =>
    intro l2
    simp only [List.nil_append, maxOf?]
    cases maxOf? l2 <;> rfl
  | cons x r ih =>
    intro l2
    simp only [List.cons_append, maxOf?, List.append_eq]
    rw [ih l2]
    cases hmr : maxOf? r <;> cases hml : maxOf? l2 <;>
      simp [omax, max_assoc]

lemma maxOf?_map_add (v : Int) :
    ∀ (l : List Int), maxOf? (l.map (fun x => v + x)) =
      (maxOf? l).map (fun x => v + x) := by
  intro l
  induction l with
  | nil => rfl
  | cons x r ih =>
    simp only [List.map_cons, maxOf?, ih]
    rw [omax_map_add]
    rfl

lemma maxOf?_leafVals :
    ∀ (items : List (Int × Int)) (c : Int),
      maxOf? (leafVals items c) = some (knapRec items c) := by
  intro items
  induction items with
  | nil => intro c; rfl
  | cons p r ih =>
    intro c
    obtain ⟨wt, vl⟩ := p
    simp only [leafVals, knapRec]
    rw [maxOf?_append]
    by_cases hle : wt ≤ c
    · rw [if_pos hle, if_pos hle]
      rw [maxOf?_map_add, ih c, ih (c - wt)]
      simp only [omax, Option.map_some']
      rw [max_comm]
      congr 1
      omega
    · rw [if_neg hle, if_neg hle]
      rw [ih c]
      rfl

lemma maskWeight_nonneg :
    ∀ (b : List Bool) (items : List (Int × Int)),
      (∀ p ∈ items, 0 ≤ p.1) → 0 ≤ maskWeight b items := by
  intro b
  induction b with
  | nil => intro items _; simp [maskWeight]
  | cons t bs ih =>
    intro items hnn
    cases items with
    | nil => simp [maskWeight]
    | cons p r =>
      have h1 := hnn p (List.mem_cons_self _ _)
      have h2 := ih r (fun q hq => hnn q (List.mem_cons_of_mem _ hq))
      simp only [maskWeight, List.zipWith_cons_cons, List.sum_cons]
      have : (List.zipWith (fun t p => if t = true then p.1 else 0) bs r).sum =
          maskWeight bs r := rfl
      rw [this]
      cases t <;> simp <;> omega

lemma feasBest?_neg_cap :
    ∀ (l : List (List Bool)) (items : List (Int × Int)) (c : Int),
      (∀ p ∈ items, 0 ≤ p.1) → c < 0 → feasBest? items c l = none := by
  intro l
  induction l with
  | nil => intro items c _ _; rfl
  | cons b rest ih =>
    intro items c hnn hc
    simp only [feasBest?]
    rw [if_neg (by
      intro hfeas
      have := maskWeight_nonneg b items hnn
      omega)]
    exact ih items c hnn hc

lemma feasBest?_append :
    ∀ (l1 l2 : List (List Bool)) (items : List (Int × Int)) (c : Int),
      feasBest? items c (l1 ++ l2) =
        omax (feasBest? items c l1) (feasBest? items c l2) := by
  intro l1
  induction l1 with
  | nil =>
    intro l2 items c
    simp only [List.nil_append, feasBest?]
    cases feasBest? items c l2 <;> rfl
  | cons b r ih =>
    intro l2 items c
    simp only [List.cons_append, feasBest?, List.append_eq]
    rw [ih l2 items c]
    by_cases hfeas : maskWeight b items ≤ c
    · rw [if_pos hfeas, if_pos hfeas]
      cases feasBest? items c r <;> cases feasBest? items c l2 <;>
        simp [omax, max_assoc]
    · rw [if_neg hfeas, if_neg hfeas]

lemma feasBest?_true_cons (wt vl : Int) (r : List (Int × Int)) :
    ∀ (l : List (List Bool)) (c : Int),
      feasBest? ((wt, vl) :: r) c (l.map (true :: ·)) =
        (feasBest? r (c - wt) l).map (fun x => vl + x) := by
  intro l
  induction l with
  | nil => intro c; rfl
  | cons b rest ih =>
    intro c
    simp only [List.map_cons, feasBest?]
    have hmw : maskWeight (true :: b) ((wt, vl) :: r) = wt + maskWeight b r := by
      simp [maskWeight]
    have hmv : maskValue (true :: b) ((wt, vl) :: r) = vl + maskValue b r := by
      simp [maskValue]
    rw [hmw, hmv, ih c]
    by_cases hfeas : maskWeight b r ≤ c - wt
    · rw [if_pos (by omega), if_pos hfeas]
      rw [omax_map_add]
      rfl
    · rw [if_neg (by omega), if_neg hfeas]

lemma feasBest?_false_cons (wt vl : Int) (r : List (Int × Int)) :
    ∀ (l : List (List Bool)) (c : Int),
      feasBest? ((wt, vl) :: r) c (l.map (false :: ·)) =
        feasBest? r c l := by
  intro l
  induction l with
  | nil => intro c; rfl
  | cons b rest ih =>
    intro c
    simp only [List.map_cons, feasBest?]
    have hmw : maskWeight (false :: b) ((wt, vl) :: r) = maskWeight b r := by
      simp [maskWeight]
    have hmv : maskValue (false :: b) ((wt, vl) :: r) = maskValue b r := by
      simp [maskValue]
    rw [hmw, hmv, ih c]

lemma feasBest?_eq_knapRec :
    ∀ (items : List (Int × Int)) (c : Int), (∀ p ∈ items, 0 ≤ p.1) → 0 ≤ c →
      feasBest? items c (pickVecs items.length) = some (knapRec items c) := by
  intro items
  induction items with
  | nil =>
    intro c _ hc
    simp only [List.length_nil, pickVecs, feasBest?, knapRec]
    rw [if_pos (by simp [maskWeight]; omega)]
    rfl
  | cons p r ih =>
    intro c hnn hc
    obtain ⟨wt, vl⟩ := p
    have hwt : 0 ≤ wt := hnn (wt, vl) (List.mem_cons_self _ _)
    have hnnr : ∀ q ∈ r, 0 ≤ q.1 :=
      fun q hq => hnn q (List.mem_cons_of_mem _ hq)
    simp only [List.length_cons, pickVecs]
    rw [feasBest?_append, feasBest?_true_cons, feasBest?_false_cons]
    simp only [knapRec]
    by_cases hle : wt ≤ c
    · rw [if_pos hle]
      rw [ih (c - wt) hnnr (by omega), ih c hnnr hc]
      simp only [Option.map_some', omax]
      congr 1
      rw [max_comm]
      congr 1
      omega
    · rw [if_neg hle]
      rw [feasBest?_neg_cap _ r (c - wt) hnnr (by omega)]
      rw [ih c hnnr hc]
      rfl

lemma specOpt_eq_knapRec (items : List (Int × Int)) (c : Int)
    (hnn : ∀ p ∈ items, 0 ≤ p.1) (hc : 0 ≤ c) :
    specOpt items c = knapRec items c := by
  unfold specOpt
  rw [feasBest?_eq_knapRec items c hnn hc]
  rfl

lemma knapRec_perm {l1 l2 : List (Int × Int)} (hperm : l1.Perm l2) :
    (∀ p ∈ l1, 0 ≤ p.1) → ∀ c, knapRec l1 c = knapRec l2 c := by
  induction hperm with
  | nil => intro _ c; rfl
  | cons x h ih =>
    intro hnn c
    obtain ⟨wt, vl⟩ := x
    simp only [knapRec]
    rw [ih (fun p hp => hnn p (List.mem_cons_of_mem _ hp)) c,
      ih (fun p hp => hnn p (List.mem_cons_of_mem _ hp)) (c - wt)]
  | swap x y t =>
    intro hnn c
    obtain ⟨wx, vx⟩ := x
    obtain ⟨wy, vy⟩ := y
    have hwx : 0 ≤ wx := hnn (wx, vx) (by simp)
    have hwy : 0 ≤ wy := hnn (wy, vy) (by simp)
    have harg : c - wy - wx = c - wx - wy := by ring
    simp only [knapRec]
    split_ifs <;> try (exfalso; omega)
    all_goals try simp only [← max_add_add_right, harg]
    all_goals try rw [show knapRec t (c - wx - wy) + vx + vy =
      knapRec t (c - wx - wy) + vy + vx from by ring]
    all_goals try simp [max_comm, max_left_comm, max_assoc]
  | trans h1 h2 ih1 ih2 =>
    intro hnn c
    rw [ih1 hnn c, ih2 (fun p hp => hnn p (h1.mem_iff.mpr hp)) c]

lemma if_lt_max (a b : Int) : (if a < b then b else a) = max a b := by
  rcases lt_or_ge a b with h | h
  · rw [if_pos h, max_eq_right (le_of_lt h)]
  · rw [if_neg (not_lt.mpr h), max_eq_left h]

lemma dpCell_val (prev weight value : List Int) (i2 w : Nat) (b : Int)
    (h : dpCell prev weight value i2 w = some b) :
    b = if weight.getD i2 0 ≤ (w : Int) then
          max (prev.getD w 0)
            (prev.getD (((w : Int) - weight.getD i2 0).toNat) 0 +
              value.getD i2 0)
        else prev.getD w 0 := by
  unfold dpCell at h
  simp only [bind, Option.bind_eq_some] at h
  obtain ⟨skip, hskip, wt, hwt, h⟩ := h
  have hskipD : prev.getD w 0 = skip := getD_of_get? 0 hskip
  have hwtD : weight.getD i2 0 = wt := getD_of_get? 0 hwt
  rw [hskipD, hwtD]
  by_cases hle : wt ≤ (w : Int)
  · rw [if_pos hle] at h ⊢
    simp only [bind, Option.bind_eq_some] at h
    obtain ⟨pv, hpv, vl, hvl, h⟩ := h
    have hpvD : prev.getD (((w : Int) - wt).toNat) 0 = pv := getD_of_get? 0 hpv
    have hvlD : value.getD i2 0 = vl := getD_of_get? 0 hvl
    rw [hpvD, hvlD]
    simp only [Option.pure_def, Option.some.injEq] at h
    rw [← h, if_lt_max]
  · rw [if_neg hle] at h ⊢
    simp only [Option.pure_def, Option.some.injEq] at h
    exact h.symm

lemma take_succ_zip_reverse (weight value : List Int) (i : Nat)
    (hi : i < weight.length) (hiv : i < value.length) :
    ((weight.take (i + 1)).zip (value.take (i + 1))).reverse =
      (weight[i], value[i]) :: ((weight.take i).zip (value.take i)).reverse := by
  rw [List.take_succ, List.take_succ]
  rw [List.getElem?_eq_getElem hi, List.getElem?_eq_getElem hiv]
  simp only [Option.toList_some]
  rw [List.zip_append (by simp [List.length_take]; omega)]
  rw [List.reverse_append]
  rfl

lemma getD_last_entry {α : Type} :
    ∀ (l : List α) (d : α), l.getD (l.length - 1) d = l.getLastD d := by
  intro l
  induction l with
  | nil => intro d; rfl
  | cons x r ih =>
    intro d
    cases r with
    | nil => rfl
    | cons y t =>
      have h1 : (x :: y :: t).getD ((x :: y :: t).length - 1) d =
          (y :: t).getD ((y :: t).length - 1) d := by
        simp [List.getD]
      rw [h1, ih d]
      rfl

lemma dpRows?_last_val (weight value : List Int) (cols : Nat)
    (hlen : value.length = weight.length) (hnn : ∀ x ∈ weight, 0 ≤ x) :
    ∀ i, i ≤ weight.length → ∀ rows,
      dpRows? weight value cols i = some rows →
      ∀ w, w < cols →
        (rows.getLastD []).getD w 0 =
          knapRec ((weight.take i).zip (value.take i)).reverse (w : Int) := by
  intro i
  induction i with
  | zero =>
    intro _ rows h w hw
    simp only [dpRows?, Option.some.injEq] at h
    subst h
    simp only [List.take_zero, List.zip_nil_left, List.reverse_nil, knapRec]
    simp [List.getD_eq_getElem?_getD, List.getElem?_replicate, hw]
  | succ i2 ih =>
    intro hle rows h w hw
    simp only [dpRows?, bind, Option.bind_eq_some, Option.pure_def,
      Option.some.injEq] at h
    obtain ⟨rows0, hrows0, row, hrow, hr⟩ := h
    subst hr
    rw [List.getLastD_concat]
    obtain ⟨hrowlen, hrowget⟩ := mapM_option_spec _ _ _ hrow
    rw [List.length_range] at hrowlen
    obtain ⟨a, b, ha, hb, hcell⟩ := hrowget w (by simpa using hw)
    have haw : a = w := by
      rw [List.get?_eq_getElem?, List.getElem?_range hw] at ha
      exact (Option.some_inj.mp ha).symm
    subst haw
    have hrowD : row.getD a 0 = b := getD_of_get? 0 hb
    rw [hrowD]
    have hval := dpCell_val _ _ _ _ _ _ hcell
    have hi2w : i2 < weight.length := by omega
    have hi2v : i2 < value.length := by omega
    have hwt0 : 0 ≤ weight.getD i2 0 := by
      apply hnn
      rw [List.getD_eq_getElem?_getD, List.getElem?_eq_getElem hi2w]
      exact List.getElem_mem hi2w
    rw [take_succ_zip_reverse weight value i2 hi2w hi2v]
    simp only [knapRec]
    have hget_w : weight.getD i2 0 = weight[i2] := by
      rw [List.getD_eq_getElem?_getD, List.getElem?_eq_getElem hi2w]
      rfl
    have hget_v : value.getD i2 0 = value[i2] := by
      rw [List.getD_eq_getElem?_getD, List.getElem?_eq_getElem hi2v]
      rfl
    rw [hval]
    by_cases hcap : weight.getD i2 0 ≤ (a : Int)
    · rw [if_pos hcap, if_pos (by rw [← hget_w]; exact hcap)]
      have hidx : (((a : Int) - weight.getD i2 0).toNat) < cols := by omega
      have hcoe : ((((a : Int) - weight.getD i2 0).toNat : Nat) : Int) =
          (a : Int) - weight.getD i2 0 := by omega
      rw [ih (by omega) rows0 hrows0 a (by omega),
        ih (by omega) rows0 hrows0 _ hidx]
      rw [hcoe, hget_w, hget_v]
    · rw [if_neg hcap, if_neg (by rw [← hget_w]; exact hcap)]
      exact ih (by omega) rows0 hrows0 a (by omega)

lemma kLeafVals_visit (st : KState) (i n : Nat) (w v : Int)
    (p : Option String) (lbl : String) :
    kLeafVals (kVisit i w v p lbl st).2 n =
      kLeafVals st n ++ (if i = n then [v] else []) := by
  unfold kLeafVals
  rw [kVisit_trace]
  rw [List.filter_append, List.map_append]
  congr 1
  by_cases h : i = n
  · rw [if_pos h]
    simp [h]
  · rw [if_neg h]
    simp [h]

lemma kDfs_leaves (weight value : List Int)
    (hlen : value.length = weight.length) :
    ∀ (fuel i : Nat) (w v : Int) (p : Option String) (lbl : String)
      (st : KState), weight.length + 1 ≤ fuel + i → i ≤ weight.length →
      kLeafVals (kDfs weight value fuel i w v p lbl st) weight.length =
        kLeafVals st weight.length ++
          (leafVals ((weight.drop i).zip (value.drop i)) w).map
            (fun x => v + x) := by
  intro fuel
  induction fuel with
  | zero => intro i w v p lbl st hf hi; omega
  | succ f ih =>
    intro i w v p lbl st hf hi
    simp only [kDfs]
    by_cases hterm : weight.length ≤ i
    · rw [if_pos hterm]
      have hieq : i = weight.length := by omega
      rw [kLeafVals_visit st i weight.length w v p lbl, if_pos hieq]
      have hd1 : weight.drop i = [] := by
        rw [List.drop_eq_nil_iff]
        omega
      have hd2 : value.drop i = [] := by
        rw [List.drop_eq_nil_iff]
        omega
      rw [hd1, hd2]
      simp [leafVals]
    · rw [if_neg hterm]
      have hlt : i < weight.length := by omega
      have hltv : i < value.length := by omega
      have hd1 : weight.drop i = weight[i] :: weight.drop (i + 1) :=
        List.drop_eq_getElem_cons hlt
      have hd2 : value.drop i = value[i] :: value.drop (i + 1) :=
        List.drop_eq_getElem_cons hltv
      have hget_w : weight.getD i 0 = weight[i] := by
        rw [List.getD_eq_getElem?_getD, List.getElem?_eq_getElem hlt]
        rfl
      have hget_v : value.getD i 0 = value[i] := by
        rw [List.getD_eq_getElem?_getD, List.getElem?_eq_getElem hltv]
        rfl
      have hvisit : kLeafVals (kVisit i w v p lbl st).2 weight.length =
          kLeafVals st weight.length := by
        rw [kLeafVals_visit st i weight.length w v p lbl,
          if_neg (by omega)]
        simp
      have hskip := ih (i + 1) w v (some (kVisit i w v p lbl st).1)
        ("Skip item " ++ toString i) (kVisit i w v p lbl st).2
        (by omega) (by omega)
      rw [hd1, hd2]
      simp only [List.zip_cons_cons, leafVals]
      by_cases hcap : weight.getD i 0 ≤ w
      · rw [if_pos hcap, if_pos (by rw [← hget_w]; exact hcap)]
        have hpick := ih (i + 1) (w - weight.getD i 0) (v + value.getD i 0)
          (some (kVisit i w v p lbl st).1) ("Pick item " ++ toString i)
          (kDfs weight value f (i + 1) w v (some (kVisit i w v p lbl st).1)
            ("Skip item " ++ toString i) (kVisit i w v p lbl st).2)
          (by omega) (by omega)
        rw [hpick, hskip, hvisit]
        rw [List.append_assoc]
        congr 1
        rw [List.map_append]
        congr 1
        rw [hget_w]
        rw [List.map_map]
        apply List.map_congr_left
        intro x _
        simp only [Function.comp]
        rw [hget_v]
        ring
      · rw [if_neg hcap, if_neg (by rw [← hget_w]; exact hcap)]
        rw [hskip, hvisit]
        simp [List.zip]

/-- C6 (amended): for every validated input with nonnegative weights and
nonnegative capacity, the DP table builds successfully and its entry
T[n][W] equals the brute-force optimal 0/1 knapsack value (best value over
all pick vectors whose total weight fits in W), which also equals the
maximum accumulated value over the leaf states reached by the DFS-variant
enumerator; in the spec's concrete scenario T[3][5] = 7. -/
theorem c6_dp_table_optimal_equals_dfs_max :
    (∀ (weight value : List Int) (W : Int),
      value.length = weight.length → (∀ x ∈ weight, 0 ≤ x) → 0 ≤ W →
      ∃ dp, dpTable? weight value W = some dp ∧
        (dp.getD weight.length []).getD W.toNat 0 =
          specOpt (weight.zip value) W ∧
        maxOf? (kLeafVals (runKnapsackDfs weight value W) weight.length) =
          some (specOpt (weight.zip value) W)) ∧
    (dpTable? [2, 3, 4] [3, 4, 5] 5).map
      (fun dp => (dp.getD 3 []).getD 5 0) = some 7 := by
  refine ⟨?_, by decide⟩
  intro weight value W hlen hnn hW
  obtain ⟨dp, hdp⟩ := Option.isSome_iff_exists.1
    (dpTable?_isSome weight value W hlen hnn)
  have hnnz : ∀ p ∈ weight.zip value, 0 ≤ p.1 := by
    intro q hq
    exact hnn q.1 (List.of_mem_zip hq).1
  have hrec : specOpt (weight.zip value) W =
      knapRec (weight.zip value) W := specOpt_eq_knapRec _ _ hnnz hW
  refine ⟨dp, hdp, ?_, ?_⟩
  · -- DP entry
    obtain ⟨hdplen, hall⟩ := dpTable?_shape weight value W dp hdp
    have hlast := dpRows?_last_val weight value ((W + 1).toNat) hlen hnn
      weight.length le_rfl dp hdp W.toNat (by omega)
    have hgd : dp.getD weight.length [] = dp.getLastD [] := by
      have : weight.length = dp.length - 1 := by omega
      rw [this, getD_last_entry]
    rw [hgd]
    rw [List.take_length] at hlast
    rw [show List.take weight.length value = value from by
      rw [← hlen, List.take_length]] at hlast
    have hWcoe : ((W.toNat : Nat) : Int) = W := by omega
    rw [hWcoe] at hlast
    rw [hlast, hrec]
    exact knapRec_perm (List.reverse_perm (weight.zip value))
      (fun q hq => hnnz q (List.mem_reverse.mp hq)) W
  · rw [hrec]
    unfold runKnapsackDfs
    have hleaves := kDfs_leaves weight value hlen (weight.length + 1) 0 W 0
      none "" ⟨[], [], fun _ => 0⟩ (by omega) (by omega)
    rw [hleaves]
    have hinit : kLeafVals ⟨[], [], fun _ => 0⟩ weight.length = [] := rfl
    rw [hinit]
    simp only [List.nil_append, List.drop_zero]
    rw [maxOf?_map_add, maxOf?_leafVals]
    simp

/-- Witness for C6's amended theorem at the spec's concrete scenario
weights=[2,3,4], values=[3,4,5], W=5 (nonnegative weights, lengths match,
nonnegative capacity). -/
theorem c6_dp_table_optimal_equals_dfs_max_witness :
    (([3, 4, 5] : List Int).length = ([2, 3, 4] : List Int).length ∧
      (∀ x ∈ ([2, 3, 4] : List Int), 0 ≤ x) ∧ (0 : Int) ≤ 5) ∧
    (∃ dp, dpTable? [2, 3, 4] [3, 4, 5] 5 = some dp ∧
      (dp.getD 3 []).getD 5 0 = specOpt ([2, 3, 4].zip [3, 4, 5]) 5 ∧
      maxOf? (kLeafVals (runKnapsackDfs [2, 3, 4] [3, 4, 5] 5) 3) =
        some (specOpt ([2, 3, 4].zip [3, 4, 5]) 5)) := by
  refine ⟨⟨by decide, by decide, by decide⟩, ?_⟩
  exact c6_dp_table_optimal_equals_dfs_max.1 [2, 3, 4] [3, 4, 5] 5
    (by decide) (by decide) (by decide)

lemma pmFind_eq_of_mem {pm : List (String × (String × String))}
    (hnd : (pm.map Prod.fst).Nodup) {e : String × (String × String)}
    (he : e ∈ pm) : pmFind (tsQuickParent pm) e.1 = some e.2.1 := by
  induction pm with
  | nil => simp at he
  | cons f rest ih =>
    rw [List.map_cons, List.nodup_cons] at hnd
    rcases List.mem_cons.1 he with he | he
    · subst he
      unfold pmFind tsQuickParent
      simp
    · have hne : f.1 ≠ e.1 := by
        intro hc
        exact hnd.1 (hc ▸ List.mem_map.2 ⟨e, he, rfl⟩)
      unfold pmFind tsQuickParent
      rw [List.map_cons, List.find?_cons_of_neg _ (by simpa using hne)]
      exact ih hnd.2 he

lemma pmFind_mem {qp : List (String × String)} {x p : String}
    (h : pmFind qp x = some p) : (x, p) ∈ qp := by
  unfold pmFind at h
  cases hf : qp.find? (fun q => q.1 = x) with
  | none => rw [hf] at h; simp at h
  | some q =>
    rw [hf] at h
    simp only [Option.map_some', Option.some.injEq] at h
    have hq := List.find?_some hf
    have hmem := List.mem_of_find?_eq_some hf
    simp only [decide_eq_true_eq] at hq
    have : q = (x, p) := by
      rw [← hq, ← h]
    exact this ▸ hmem

lemma pmFind_none_iff {qp : List (String × String)} {x : String} :
    pmFind qp x = none ↔ ∀ q ∈ qp, q.1 ≠ x := by
  unfold pmFind
  rw [Option.map_eq_none', List.find?_eq_none]
  simp

lemma indexOf_decomp_aux :
    ∀ (l1 : List String) (x : String) (l2 : List String),
      (l1 ++ x :: l2).Nodup → (l1 ++ x :: l2).indexOf x = l1.length := by
  intro l1
  induction l1 with
  | nil => intro x l2 _; simp
  | cons a r ih =>
    intro x l2 hnd
    rw [List.cons_append, List.nodup_cons] at hnd
    have hax : a ≠ x := by
      intro hc
      exact hnd.1 (by
        rw [hc]
        exact List.mem_append.2 (Or.inr (List.mem_cons_self _ _)))
    have hbeq : ¬ (a == x) = true := by simpa using hax
    rw [List.cons_append, List.indexOf_cons]
    simp only [hbeq, cond_false]
    rw [ih x l2 hnd.2]
    rfl

lemma indexOf_decomp {uids l1 l2 : List String} {x : String}
    (hnd : uids.Nodup) (hsplit : uids = l1 ++ x :: l2) :
    uids.indexOf x = l1.length := by
  subst hsplit
  exact indexOf_decomp_aux l1 x l2 hnd

lemma indexOf_lt_of_mem_left {l1 : List String} (rest : List String)
    {x : String} (hx : x ∈ l1) :
    (l1 ++ rest).indexOf x < l1.length := by
  induction l1 with
  | nil => simp at hx
  | cons a r ih =>
    by_cases hax : a = x
    · simp [List.indexOf_cons, hax]
    · have hxr : x ∈ r := by
        rcases List.mem_cons.1 hx with h | h
        · exact absurd h.symm hax
        · exact h
      have hbeq : ¬ (a == x) = true := by simpa using hax
      simp only [List.cons_append, List.indexOf_cons, hbeq, cond_false]
      have := ih hxr
      simp only [List.length_cons]
      omega

lemma root_not_key {pm : List (String × (String × String))}
    {uids : List String} (hnd : uids.Nodup)
    (hpm : ∀ e ∈ pm, ∃ l1 l2, uids = l1 ++ e.1 :: l2 ∧ e.2.1 ∈ l1)
    {e : String × (String × String)} (he : e ∈ pm) :
    e.1 ≠ uids.headD "" := by
  intro hc
  obtain ⟨l1, l2, hsplit, hpar⟩ := hpm e he
  have hidx : uids.indexOf e.1 = l1.length := indexOf_decomp hnd hsplit
  have hl1 : l1 ≠ [] := by
    intro hl
    rw [hl] at hpar
    simp at hpar
  have huids : uids ≠ [] := by
    rw [hsplit]
    simp
  have hidx0 : uids.indexOf e.1 = 0 := by
    rw [hc]
    cases uids with
    | nil => exact absurd rfl huids
    | cons u rest => simp [List.indexOf_cons]
  rw [hidx] at hidx0
  rw [List.length_eq_zero] at hidx0
  exact hl1 hidx0

lemma chase_spec (pm : List (String × (String × String)))
    (uids : List String) (hnd : uids.Nodup)
    (hpm : ∀ e ∈ pm, ∃ l1 l2, uids = l1 ++ e.1 :: l2 ∧ e.2.1 ∈ l1)
    (hkeys : (pm.map Prod.fst).Nodup)
    (hcover : ∀ y ∈ uids, y = uids.headD "" ∨ y ∈ pm.map Prod.fst) :
    ∀ (j : Nat) (x : String), x ∈ uids → uids.indexOf x = j →
      ∃ ch, ch ≠ [] ∧ ch.head? = some x ∧
        (∀ f, j + 1 ≤ f → tsChase (tsQuickParent pm) f x = ch) ∧
        isParentChainPath (tsQuickParent pm) (uids.headD "") x ch.reverse ∧
        (∀ p, isParentChainPath (tsQuickParent pm) (uids.headD "") x p →
          p = ch.reverse) := by
  intro j
  induction j using Nat.strong_induction_on with
  | _ j ih =>
    intro x hx hidx
    cases hfind : pmFind (tsQuickParent pm) x with
    | none =>
      -- x has no parent entry, so x is the root
      have hroot : x = uids.headD "" := by
        rcases hcover x hx with h | h
        · exact h
        · exfalso
          obtain ⟨e, he, hekey⟩ := List.mem_map.1 h
          have := pmFind_eq_of_mem hkeys he
          rw [hekey] at this
          rw [this] at hfind
          exact Option.noConfusion hfind
      refine ⟨[x], by simp, by simp, ?_, ?_, ?_⟩
      · intro f hf
        cases f with
        | zero => omega
        | succ f2 => simp [tsChase, hfind]
      · exact ⟨by simp [hroot], by simp, by simp⟩
      · intro p hp
        obtain ⟨hph, hpl, hpc⟩ := hp
        have hpne : p ≠ [] := by
          intro hc
          rw [hc] at hph
          exact Option.noConfusion hph
        have hdec : p = p.dropLast ++ [p.getLast hpne] :=
          (List.dropLast_append_getLast hpne).symm
        have hplast : p.getLast hpne = x := by
          have := List.getLast?_eq_getLast p hpne
          rw [this] at hpl
          exact Option.some_inj.mp hpl
        cases hdl : p.dropLast with
        | nil =>
          rw [hdec, hdl, hplast]
          rfl
        | cons d ds =>
          exfalso
          -- the chain would give x a parent
          rw [hdec, hdl] at hpc
          rw [List.chain'_append] at hpc
          have hlink := hpc.2.2 ((d :: ds).getLast (List.cons_ne_nil d ds))
            (List.getLast?_eq_getLast _ (List.cons_ne_nil d ds))
            (p.getLast hpne) rfl
          rw [hplast, hfind] at hlink
          exact Option.noConfusion hlink
    | some par =>
      -- x has a recorded parent strictly earlier in the trace
      obtain ⟨e, he, hekey⟩ : ∃ e ∈ pm, (e.1, e.2.1) = (x, par) := by
        have := pmFind_mem hfind
        unfold tsQuickParent at this
        obtain ⟨e, he, heq⟩ := List.mem_map.1 this
        exact ⟨e, he, heq⟩
      have hex : e.1 = x := congrArg Prod.fst hekey
      have hepar : e.2.1 = par := congrArg Prod.snd hekey
      obtain ⟨l1, l2, hsplit, hpar⟩ := hpm e he
      rw [hex] at hsplit
      rw [hepar] at hpar
      have hidxx : uids.indexOf x = l1.length := indexOf_decomp hnd hsplit
      have hparmem : par ∈ uids := by
        rw [hsplit]
        exact List.mem_append.2 (Or.inl hpar)
      have hparidx : uids.indexOf par < j := by
        rw [← hidx, hidxx]
        rw [hsplit]
        exact indexOf_lt_of_mem_left _ hpar
      obtain ⟨ch, hchne, hchh, hchf, hchpath, hchuniq⟩ :=
        ih (uids.indexOf par) hparidx par hparmem rfl
      refine ⟨x :: ch, by simp, by simp, ?_, ?_, ?_⟩
      · intro f hf
        cases f with
        | zero => omega
        | succ f2 =>
          simp only [tsChase, hfind]
          rw [hchf f2 (by omega)]
      · obtain ⟨hh, hl, hc⟩ := hchpath
        refine ⟨?_, ?_, ?_⟩
        · rw [List.reverse_cons]
          rw [List.head?_append]
          rw [hh]
          rfl
        · rw [List.reverse_cons, List.getLast?_concat]
        · rw [List.reverse_cons, List.chain'_append]
          refine ⟨hc, List.chain'_singleton _, ?_⟩
          intro a ha b hb
          rw [Option.mem_def] at ha hb
          simp only [List.head?_cons, Option.some.injEq] at hb
          have hlast : ch.reverse.getLast? = some par := by
            rw [List.getLast?_reverse]
            exact hchh
          rw [hlast] at ha
          have ha2 : par = a := Option.some_inj.mp ha
          rw [← hb, ← ha2]
          exact hfind
      · intro p hp
        obtain ⟨hph, hpl, hpc⟩ := hp
        have hpne : p ≠ [] := by
          intro hc
          rw [hc] at hph
          exact Option.noConfusion hph
        have hdec : p = p.dropLast ++ [p.getLast hpne] :=
          (List.dropLast_append_getLast hpne).symm
        have hplast : p.getLast hpne = x := by
          have := List.getLast?_eq_getLast p hpne
          rw [this] at hpl
          exact Option.some_inj.mp hpl
        cases hdl : p.dropLast with
        | nil =>
          -- then p = [x] and x would be the root, impossible: x is a key
          exfalso
          have hpx : p = [x] := by rw [hdec, hdl, hplast]; rfl
          rw [hpx] at hph
          simp only [List.head?_cons, Option.some.injEq] at hph
          have := root_not_key hnd hpm he
          rw [hex] at this
          exact this hph
        | cons d ds =>
          have hpc2 := hpc
          rw [hdec, hdl] at hpc2
          rw [List.chain'_append] at hpc2
          have hlink := hpc2.2.2 ((d :: ds).getLast (List.cons_ne_nil d ds))
            (List.getLast?_eq_getLast _ (List.cons_ne_nil d ds))
            (p.getLast hpne) rfl
          rw [hplast, hfind] at hlink
          have hlastpar : (d :: ds).getLast (List.cons_ne_nil d ds) = par :=
            (Option.some_inj.mp hlink).symm
          have hsub : isParentChainPath (tsQuickParent pm) (uids.headD "")
              par (d :: ds) := by
            refine ⟨?_, ?_, hpc2.1⟩
            · have : p.head? = (d :: ds).head? := by
                rw [hdec, hdl]
                rw [List.head?_append]
                rfl
              rw [← this]
              exact hph
            · rw [List.getLast?_eq_getLast _ (by simp), hlastpar]
          have := hchuniq (d :: ds) hsub
          rw [hdec, hdl, hplast, this]
          rw [List.reverse_cons]
  

lemma cover_length_le {keys uids : List String}
    (hnd : uids.Nodup)
    (hcover : ∀ y ∈ uids, y = uids.headD "" ∨ y ∈ keys) :
    uids.length ≤ keys.length + 1 := by
  cases uids with
  | nil => simp
  | cons h t =>
    rw [List.nodup_cons] at hnd
    have hsub : t ⊆ keys := by
      intro y hy
      rcases hcover y (List.mem_cons_of_mem _ hy) with hh | hh
      · rw [List.headD_cons] at hh
        exact absurd (hh ▸ hy) hnd.1
      · exact hh
    have hle := (List.Nodup.subperm hnd.2 hsub).length_le
    simpa using Nat.succ_le_succ hle

/-- C5: for every Target Sum run, the highlighted node set computed by the
path highlighter is exactly the set of node identities lying on at least
one root-to-goal-leaf path: every highlighted node lies on a parent-chain
path from the root to some valid leaf, and conversely every node on such a
path (including root and leaf) is highlighted. -/
theorem c5_highlighted_iff_on_accepting_path
    (nums : List Int) (target : Int) (x : String) :
    x ∈ tsHighlighted (runTargetSumDfs nums target).pm
        (runTargetSumDfs nums target).leaves ↔
      ∃ leaf ∈ (runTargetSumDfs nums target).leaves, ∃ p : List String,
        isParentChainPath (tsQuickParent (runTargetSumDfs nums target).pm)
          (((runTargetSumDfs nums target).trace.map Prod.fst).headD "")
          leaf p ∧ x ∈ p := by
  obtain ⟨-, hnd, hpm, hkeys, hleaves, hcover⟩ := runTargetSumDfs_TInv nums target
  constructor
  · intro hx
    rw [tsHighlighted, List.mem_flatMap] at hx
    obtain ⟨leaf, hleaf, hxch⟩ := hx
    have hmem : leaf ∈ (runTargetSumDfs nums target).trace.map Prod.fst :=
      hleaves leaf hleaf
    obtain ⟨ch, hne, hhd, hfuel, hpath, huniq⟩ :=
      chase_spec (runTargetSumDfs nums target).pm
        ((runTargetSumDfs nums target).trace.map Prod.fst) hnd hpm hkeys hcover
        (((runTargetSumDfs nums target).trace.map Prod.fst).indexOf leaf)
        leaf hmem rfl
    have hlen : ((runTargetSumDfs nums target).trace.map Prod.fst).length ≤
        ((runTargetSumDfs nums target).pm.map Prod.fst).length + 1 :=
      cover_length_le hnd hcover
    have hidx := List.indexOf_lt_length.mpr hmem
    simp only [List.length_map] at hlen hidx
    have hf : ((runTargetSumDfs nums target).trace.map Prod.fst).indexOf leaf + 1 ≤
        (tsQuickParent (runTargetSumDfs nums target).pm).length + 1 := by
      rw [tsQuickParent, List.length_map]; omega
    rw [hfuel _ hf] at hxch
    exact ⟨leaf, hleaf, ch.reverse, hpath, List.mem_reverse.mpr hxch⟩
  · rintro ⟨leaf, hleaf, p, hpath, hxp⟩
    have hmem : leaf ∈ (runTargetSumDfs nums target).trace.map Prod.fst :=
      hleaves leaf hleaf
    obtain ⟨ch, hne, hhd, hfuel, hpath0, huniq⟩ :=
      chase_spec (runTargetSumDfs nums target).pm
        ((runTargetSumDfs nums target).trace.map Prod.fst) hnd hpm hkeys hcover
        (((runTargetSumDfs nums target).trace.map Prod.fst).indexOf leaf)
        leaf hmem rfl
    have hp := huniq p hpath
    subst hp
    have hlen : ((runTargetSumDfs nums target).trace.map Prod.fst).length ≤
        ((runTargetSumDfs nums target).pm.map Prod.fst).length + 1 :=
      cover_length_le hnd hcover
    have hidx := List.indexOf_lt_length.mpr hmem
    simp only [List.length_map] at hlen hidx
    have hf : ((runTargetSumDfs nums target).trace.map Prod.fst).indexOf leaf + 1 ≤
        (tsQuickParent (runTargetSumDfs nums target).pm).length + 1 := by
      rw [tsQuickParent, List.length_map]; omega
    rw [tsHighlighted, List.mem_flatMap]
    exact ⟨leaf, hleaf, by rw [hfuel _ hf]; exact List.mem_reverse.mp hxp⟩
